import Mathlib

/-!
Verification development for the lineqpp linear-equation preprocessor.

The embedding below translates the equation solver of
`src/lineqpp/lineqpp.lua` (the authoritative version, lines 1-562) and the
thin driver glue of the C scanner/solver into Lean.  Modelling choices:

* Lua numbers (IEEE-754 doubles) are modelled as exact rationals `ℚ`.
  Every literal appearing in the programs we evaluate is exactly
  representable; `math.pi` is embedded as the exact rational value of the
  IEEE double nearest to π.  Division by an exact zero yields Lean's
  `0`-convention value where Lua would produce an IEEE infinity; no theorem
  below asserts a numeric value produced through a zero divisor.
* The transcendental helpers `log` and `exp` used by complex
  exponentiation are not rational-valued, so they are taken as explicit
  function parameters (`RealFns`); theorems about `^` quantify over them,
  constraining only the (exactly representable) values they take at the
  inputs that actually occur.
* Lua tables are modelled as association lists in insertion order.  Lua
  leaves `pairs` iteration order unspecified; the embedding fixes it.
* `error(msg, 0)` aborts the run: the C driver catches it via `lua_pcall`,
  prints `file:line: msg at token ...` on stderr through `yyerror`, and
  calls `exit(1)`.  The embedding models this with `Except Err`; an
  `Except.error` at any point aborts the remaining program, and `exitCode`
  maps it to the process exit status 1.
* The seeded math-function entries (`abs`, `exp`, ... in `env`) are
  modelled as tags (`FunId`).  Their numeric behaviour never matters: as
  proved below, the `application` path can never reach a function value,
  so the tags are never applied.
-/

/-- Tolerance used for all zero tests (source: `local tol = 1.0e-6`). -/
def tol : ℚ := 1 / 1000000

/-- Source `is_zero`: a number counts as zero when its absolute value is
below the tolerance. -/
def is_zero (x : ℚ) : Bool :=
  if |x| < tol then true else false

/-- Source numeric `zap`: replace numbers close to zero with zero. -/
def zapNum (x : ℚ) : ℚ :=
  if is_zero x then 0 else x

/-- Source `s`: format a number with `string.format("%.4f", x)` — four
fractional digits, rounding to the nearest ten-thousandth (ties away from
zero; an exact tie cannot arise from a binary double). -/
def sfmt (x : ℚ) : String :=
  let sign := if x < 0 then "-" else ""
  let n : ℤ := ⌊|x| * 10000 + 1 / 2⌋
  let m : ℕ := n.toNat
  let ip : ℕ := m / 10000
  let fp : ℕ := m % 10000
  let fs : String := Nat.repr fp
  let pad : String := String.mk (List.replicate (4 - fs.length) (Char.ofNat 48))
  sign ++ Nat.repr ip ++ "." ++ pad ++ fs

/-! Association lists standing for Lua tables (keys are unique in any
table the program actually builds; well-formedness is tracked by the
`Nodup` predicates used in the theorems). -/

/-- First-match lookup in an association list (a Lua table read `t[k]`). -/
def lookupA {α : Type} : List (String × α) → String → Option α
  | [], _ => none
  | e :: t, v => if e.1 = v then some e.2 else lookupA t v

/-- Table write `t[k] = x`: replace the first binding of `k`, or append a
new binding. -/
def setKeyA {α : Type} : List (String × α) → String → α → List (String × α)
  | [], v, x => [(v, x)]
  | e :: t, v, x => if e.1 = v then (v, x) :: t else e :: setKeyA t v x

/-- Table delete `t[k] = nil`: drop the first binding of `k`. -/
def eraseKeyA {α : Type} : List (String × α) → String → List (String × α)
  | [], _ => []
  | e :: t, v => if e.1 = v then t else e :: eraseKeyA t v

/-- Keys of an association list. -/
def keysA {α : Type} (l : List (String × α)) : List String :=
  l.map Prod.fst

/-! Linear polynomials over the reals (source section "Linear
polynomials").  `c` is the constant term, `ls` maps variables to their
coefficients: `x + 2*y + 3 ---> {c = 3, ls = {x = 1, y = 2}}`. -/

structure LinPoly where
  c : ℚ
  ls : List (String × ℚ)
  deriving DecidableEq, Repr

/-- Coefficient of `v` in `p` (0 when absent, like a nil table read). -/
def coeffOf (p : LinPoly) (v : String) : ℚ :=
  (lookupA p.ls v).getD 0

/-- Variables of a polynomial. -/
def keysP (p : LinPoly) : List String :=
  keysA p.ls

/-- Source `Linear.zap`: delete linear terms with coefficients close to
zero and snap a near-zero constant term to zero. -/
def LinPoly.zap (p : LinPoly) : LinPoly :=
  ⟨zapNum p.c, p.ls.filter (fun e => !is_zero e.2)⟩

/-- Source `Linear.number`: a polynomial with no linear terms is the
number `c`. -/
def LinPoly.number (p : LinPoly) : Option ℚ :=
  match p.ls with
  | [] => some p.c
  | _ => none

/-- Accumulate one addend into a coefficient table (the body of the
second loop of `Linear.__add`). -/
def addInto (ls : List (String × ℚ)) (v : String) (c2 : ℚ) : List (String × ℚ) :=
  match lookupA ls v with
  | some c1 => setKeyA ls v (c1 + c2)
  | none => ls ++ [(v, c2)]

/-- Accumulate one subtrahend into a coefficient table (the body of the
second loop of `Linear.__sub`). -/
def subInto (ls : List (String × ℚ)) (v : String) (c2 : ℚ) : List (String × ℚ) :=
  match lookupA ls v with
  | some c1 => setKeyA ls v (c1 - c2)
  | none => ls ++ [(v, -c2)]

/-- Merge a list of addends into a coefficient table. -/
def mergeAdd (acc : List (String × ℚ)) : List (String × ℚ) → List (String × ℚ)
  | [] => acc
  | e :: t => mergeAdd (addInto acc e.1 e.2) t

/-- Merge a list of subtrahends into a coefficient table. -/
def mergeSub (acc : List (String × ℚ)) : List (String × ℚ) → List (String × ℚ)
  | [] => acc
  | e :: t => mergeSub (subInto acc e.1 e.2) t

/-- Source `Linear.__add`. -/
def LinPoly.add (p1 p2 : LinPoly) : LinPoly :=
  ⟨p1.c + p2.c, mergeAdd p1.ls p2.ls⟩

/-- Source `Linear.__sub`. -/
def LinPoly.sub (p1 p2 : LinPoly) : LinPoly :=
  ⟨p1.c - p2.c, mergeSub p1.ls p2.ls⟩

/-- Source `Linear.__unm`. -/
def LinPoly.neg (p : LinPoly) : LinPoly :=
  ⟨-p.c, p.ls.map (fun e => (e.1, -e.2))⟩

/-- Multiplication by the number `k` — the branch of `Linear.__mul` taken
once one factor is known to be the constant `k`. -/
def LinPoly.scale (k : ℚ) (p : LinPoly) : LinPoly :=
  ⟨k * p.c, p.ls.map (fun e => (e.1, k * e.2))⟩

/-- Errors raised by the solver (`error(msg, 0)` in Lua, plus the two Lua
runtime faults reachable from it); all are fatal to the run. -/
inductive Err where
  /-- "redundant equation" -/
  | redundantEquation
  /-- "inconsistent equation" -/
  | inconsistentEquation
  /-- "muliplier and multiplicand both not a number" (typo as in source) -/
  | mulNonNumber
  /-- "divisor is not a number" -/
  | divisorNotNumber
  /-- "exponent not a number" -/
  | expNotNumber
  /-- "exponent must be real" -/
  | expMustBeReal
  /-- "exponentiation base not a number" -/
  | baseNotNumber
  /-- "function used as a variable" (the `Map_missing.__index` trap) -/
  | funUsedAsVar
  /-- Lua fault "attempt to call method tostring (a nil value)": the
  failed-application branch of `application` calls `fun:tostring()`,
  which no complex polynomial implements. -/
  | notAFunctionCrash
  /-- Lua fault "table index is nil": `solve` found no pivot. -/
  | luaNilIndex
  deriving DecidableEq, Repr

/-- Decidable equality for `Except`, so that concrete runs can be
checked by evaluation. -/
instance {ε α : Type} [DecidableEq ε] [DecidableEq α] : DecidableEq (Except ε α) :=
  fun a b =>
    match a, b with
    | .ok x, .ok y =>
      if h : x = y then .isTrue (by rw [h]) else .isFalse (by simp [h])
    | .error x, .error y =>
      if h : x = y then .isTrue (by rw [h]) else .isFalse (by simp [h])
    | .ok _, .error _ => .isFalse (by simp)
    | .error _, .ok _ => .isFalse (by simp)

/-- Source `Linear.__mul`: at least one factor must be a number. -/
def LinPoly.mul (p1 p2 : LinPoly) : Except Err LinPoly :=
  match p1.number with
  | some c1 => .ok (LinPoly.scale c1 p2)
  | none =>
    match p2.number with
    | some c1 => .ok (LinPoly.scale c1 p1)
    | none => .error .mulNonNumber

/-- Source `Linear.__div`: the divisor must be a number; the result is
`linear(1/c2) * p1`.  (No zero test: a zero divisor flows through.) -/
def LinPoly.div (p1 p2 : LinPoly) : Except Err LinPoly :=
  match p2.number with
  | some c2 => .ok (LinPoly.scale (1 / c2) p1)
  | none => .error .divisorNotNumber

/-- Body of `Linear.subst` once the coefficient `c1 = p1.ls[v2]` has
been found: remove the `v2` term, add `c1 * p2`, and simplify. -/
def substPoly (p1 p2 : LinPoly) (v2 : String) (c1 : ℚ) : LinPoly :=
  (LinPoly.add ⟨p1.c, eraseKeyA p1.ls v2⟩ (LinPoly.scale c1 p2)).zap

/-- Source `Linear.subst` (without the `v1` naming argument, which is
only used for the debug trace and the solved event): substitute `p2` for
`v2` in `p1`.  Returns the new polynomial together with the constant it
collapsed to, if any — the source then calls `solved(v1, c1)`. -/
def LinPoly.subst (p1 : LinPoly) (p2 : LinPoly) (v2 : String) : LinPoly × Option ℚ :=
  match lookupA p1.ls v2 with
  | none => (p1, none)
  | some c1 => (substPoly p1 p2 v2 c1, (substPoly p1 p2 v2 c1).number)

/-- Pivot search of `solve`: the linear term whose coefficient has the
maximum absolute value (`a_max, v_max, c_max = 0` then a strict-greater
scan). -/
def pivotScan (ls : List (String × ℚ)) : ℚ × Option (String × ℚ) :=
  ls.foldl (fun acc e => if |e.2| > acc.1 then (|e.2|, some e) else acc) (0, none)

/-! The environment and the solver state.  `env` maps variables to linear
polynomials (dependent variables) or to math functions; `translation` is
the table consulted by the preprocessor; `whatever` is the
anonymous-variable counter. -/

/-- Tags for the seeded built-in functions. -/
inductive FunId where
  | abs | exp | log | cos | sin | rad | deg
  deriving DecidableEq, Repr

/-- An environment value: a linear polynomial or a math function. -/
inductive EnvVal where
  | lin (p : LinPoly)
  | fn (f : FunId)
  deriving DecidableEq, Repr

/-- The mutable state of the Lua program. -/
structure EState where
  env : List (String × EnvVal)
  translation : List (String × String)
  whatever : ℕ
  deriving DecidableEq, Repr

/-- Source `translate` (renamed, the name is taken in Mathlib): the
lookup the scanner performs for each `ID#(x|y)` token found in free
text. -/
def translateTok (st : EState) (tok : String) : Option String :=
  lookupA st.translation tok

/-- Source `solved`: record a solved variable in the translation table as
`s(zap(x))`. -/
def solvedEntry (tr : List (String × String)) (v : String) (x : ℚ) : List (String × String) :=
  setKeyA tr v (sfmt (zapNum x))

/-- Substitute the new dependency into one environment entry: polynomials
go through `Linear.subst`, math functions through `Map.subst` (identity). -/
def substEnvVal (q : LinPoly) (vmax : String) (x : EnvVal) : EnvVal :=
  match x with
  | .lin r => .lin (r.subst q vmax).1
  | .fn f => .fn f

/-- Translation-table updates produced while propagating the new
dependency over the environment (the `solved(v1, c1)` calls inside
`Linear.subst`), applied in iteration order. -/
def substEvents (q : LinPoly) (vmax : String) (tr : List (String × String)) :
    List (String × EnvVal) → List (String × String)
  | [] => tr
  | we :: rest =>
    match we.2 with
    | .lin r =>
      match (r.subst q vmax).2 with
      | some c => substEvents q vmax (solvedEntry tr we.1 c) rest
      | none => substEvents q vmax tr rest
    | .fn _ => substEvents q vmax tr rest

/-- The polynomial the pivot variable becomes bound to:
`linear(-1/c_max) * (p with the pivot term removed)`, simplified. -/
def pivotPoly (p : LinPoly) (vmax : String) (cmax : ℚ) : LinPoly :=
  (LinPoly.scale (-1 / cmax) ⟨p.c, eraseKeyA p.ls vmax⟩).zap

/-- The state after the non-error tail of `solve`: record the pivot as
solved if its polynomial is constant, propagate the new dependency over
every environment entry, and store it (`p` is the already simplified
equation polynomial). -/
def solveStep (st : EState) (p : LinPoly) (vmax : String) (cmax : ℚ) : EState :=
  { env :=
      setKeyA (st.env.map (fun we => (we.1, substEnvVal (pivotPoly p vmax cmax) vmax we.2)))
        vmax (.lin (pivotPoly p vmax cmax)),
    translation :=
      substEvents (pivotPoly p vmax cmax) vmax
        (match (pivotPoly p vmax cmax).number with
         | some c => solvedEntry st.translation vmax c
         | none => st.translation)
        st.env,
    whatever := st.whatever }

/-- Source `solve`: simplify, reject constant equations, elect the pivot
with the coefficient of maximum magnitude, solve for it, record a solved
constant, propagate the dependency over the environment, and store it. -/
def solve (st : EState) (p0 : LinPoly) : Except Err EState :=
  match (p0.zap).number with
  | some c =>
    if is_zero c then .error .redundantEquation else .error .inconsistentEquation
  | none =>
    match (pivotScan (p0.zap).ls).2 with
    | none => .error .luaNilIndex
    | some (vmax, cmax) => .ok (solveStep st (p0.zap) vmax cmax)

/-! Complex linear polynomials: a pair of environment values, usually two
real linear polynomials (source section "Complex Linear Polynomials").
Reading a component of a math function (`Map`) raises the
`Map_missing.__index` error "function used as a variable"; the wrappers
below reproduce that. -/

/-- A value on the expression stack: `complex(x, y)`. -/
abbrev CVal := EnvVal × EnvVal

/-- Use an environment value as a linear polynomial; a math function
trips `Map_missing.__index`. -/
def evLin : EnvVal → Except Err LinPoly
  | .lin p => .ok p
  | .fn _ => .error .funUsedAsVar

/-- Call `:number()` on an environment value (a math function has no such
method and trips `Map_missing.__index`). -/
def evNumber : EnvVal → Except Err (Option ℚ)
  | .lin p => .ok p.number
  | .fn _ => .error .funUsedAsVar

/-- `Linear.__mul` lifted to environment values. -/
def evMul (a b : EnvVal) : Except Err LinPoly := do
  LinPoly.mul (← evLin a) (← evLin b)

/-- Source `Complex.__add`. -/
def Cpx.add (z1 z2 : CVal) : Except Err CVal := do
  let x1 ← evLin z1.1
  let x2 ← evLin z2.1
  let y1 ← evLin z1.2
  let y2 ← evLin z2.2
  .ok (.lin (x1.add x2), .lin (y1.add y2))

/-- Source `Complex.__sub`. -/
def Cpx.sub (z1 z2 : CVal) : Except Err CVal := do
  let x1 ← evLin z1.1
  let x2 ← evLin z2.1
  let y1 ← evLin z1.2
  let y2 ← evLin z2.2
  .ok (.lin (x1.sub x2), .lin (y1.sub y2))

/-- Source `Complex.__unm`. -/
def Cpx.neg (z : CVal) : Except Err CVal := do
  let x ← evLin z.1
  let y ← evLin z.2
  .ok (.lin x.neg, .lin y.neg)

/-- Source `Complex.__mul`:
`complex(x1*x2 - y1*y2, x1*y2 + x2*y1)`. -/
def Cpx.mul (z1 z2 : CVal) : Except Err CVal := do
  let a ← evMul z1.1 z2.1
  let b ← evMul z1.2 z2.2
  let cc ← evMul z1.1 z2.2
  let d ← evMul z2.1 z1.2
  .ok (.lin (a.sub b), .lin (cc.add d))

/-- Source `Complex.__div`: both parts of the divisor must be numbers,
then multiply by the conjugate over the squared magnitude.  (There is no
zero test on `x*x + y*y`.) -/
def Cpx.div (z1 z2 : CVal) : Except Err CVal := do
  let xo ← evNumber z2.1
  let yo ← evNumber z2.2
  match xo, yo with
  | some x, some y =>
    let sq : LinPoly := ⟨1 / (x * x + y * y), []⟩
    let t1 ← evMul z1.1 z2.1
    let t2 ← evMul z1.2 z2.2
    let xr ← LinPoly.mul (t1.add t2) sq
    let t3 ← evMul z2.1 z1.2
    let t4 ← evMul z1.1 z2.2
    let yr ← LinPoly.mul (t3.sub t4) sq
    .ok (.lin xr, .lin yr)
  | _, _ => .error .divisorNotNumber

/-- The two transcendental helpers used by complex exponentiation
(source local functions `log` and `exp` over pairs of reals), taken as
parameters since they are not rational-valued. -/
structure RealFns where
  lg : ℚ × ℚ → ℚ × ℚ
  ex : ℚ × ℚ → ℚ × ℚ

/-- Source `Complex.__pow`: the exponent must be a real number and the
base a number; then `x1, y1 = log(x1, y1); x1, y1 = exp(x1*x2, x2*y1)`
and the source returns `complex(linear(x1), linear(x2))` — note the
second component really is `x2`, the exponent's real part, exactly as
written on source line 463. -/
def Cpx.pow (F : RealFns) (z1 z2 : CVal) : Except Err CVal := do
  let x2o ← evNumber z2.1
  let y2o ← evNumber z2.2
  match x2o, y2o with
  | some x2, some y2 =>
    if is_zero y2 then do
      let x1o ← evNumber z1.1
      let y1o ← evNumber z1.2
      match x1o, y1o with
      | some x1, some y1 =>
        let l := F.lg (x1, y1)
        let e := F.ex (l.1 * x2, x2 * l.2)
        .ok (.lin ⟨e.1, []⟩, .lin ⟨x2, []⟩)
      | _, _ => .error .baseNotNumber
    else .error .expMustBeReal
  | _, _ => .error .expNotNumber

/-! Constructors called by the parser (source section "Linear equation
constructors accessed by the parser"). -/

/-- Source `variable_part`: a dependent variable or function name is
replaced by its value; anything else becomes the bare polynomial with a
single unit coefficient. -/
def variable_part (st : EState) (v : String) : EnvVal :=
  match lookupA st.env v with
  | some val => val
  | none => .lin ⟨0, [(v, 1)]⟩

/-- Source `variable` (renamed; `variable` is a Lean keyword): a
variable denotes the complex pair of its `#x` and `#y` parts. -/
def variableC (st : EState) (var : String) : CVal :=
  (variable_part st (var ++ "#x"), variable_part st (var ++ "#y"))

/-- Source `number`: the constant complex polynomial `x + 0i`. -/
def numberC (x : ℚ) : CVal :=
  (.lin ⟨x, []⟩, .lin ⟨0, []⟩)

/-- Source `application`: `fun.func` is nil for every value the parser
can put in function position (a complex pair built by `variable`, which
looks up `name#x`/`name#y` and therefore never retrieves a `Map` stored
under the bare `name`), so after evaluating the argument's parts the
not-a-function branch runs — and itself faults calling the undefined
method `fun:tostring()`. -/
def application (_fn : CVal) (arg : CVal) : Except Err CVal := do
  let _x ← evNumber arg.1
  let _y ← evNumber arg.2
  .error .notAFunctionCrash

/-- Source `mediation`: `t [x, y] = x + xpart t * (y - x)`. -/
def mediation (scale left right : CVal) : Except Err CVal := do
  let d ← Cpx.sub right left
  let m ← Cpx.mul (scale.1, .lin ⟨0, []⟩) d
  Cpx.add left m

/-- Source `reduce`, inner accumulation: `ans + variable_part(v) *
linear(c)` for each linear term. -/
def reduceAux (st : EState) (ans : LinPoly) : List (String × ℚ) → Except Err LinPoly
  | [] => .ok ans
  | e :: t => do
    let m ← evMul (variable_part st e.1) (.lin ⟨e.2, []⟩)
    reduceAux st (ans.add m) t

/-- Source `reduce`: update a polynomial with the latest solutions. -/
def reduceL (st : EState) (p : LinPoly) : Except Err LinPoly :=
  reduceAux st ⟨p.c, []⟩ p.ls

/-- `reduce` applied to one component of a complex value (reading `.c` of
a math function trips `Map_missing.__index`). -/
def reduceEV (st : EState) : EnvVal → Except Err LinPoly
  | .lin p => reduceL st p
  | .fn _ => .error .funUsedAsVar

/-- Source `equation_part`: solve `left - right` (`Linear.__sub` on the
two component values). -/
def equation_part (st : EState) (l r : EnvVal) : Except Err EState := do
  let pl ← evLin l
  let pr ← evLin r
  solve st (pl.sub pr)

/-- Source `equation`: solve the real parts, then the reduced imaginary
parts, and return the right side reduced against the updated
environment (so chained equations keep evaluating correctly). -/
def equationC (st : EState) (left right : CVal) : Except Err (EState × CVal) := do
  let st1 ← equation_part st left.1 right.1
  let ly ← reduceEV st1 left.2
  let ry ← reduceEV st1 right.2
  let st2 ← equation_part st1 (.lin ly) (.lin ry)
  let rx ← reduceEV st2 right.1
  let ry2 ← reduceEV st2 right.2
  .ok (st2, (.lin rx, .lin ry2))

/-! The expression layer: the parser's semantic actions build values
bottom-up on the Lua stack; an expression tree evaluates in the same
order.  Only the anonymous-variable counter changes during evaluation. -/

/-- Abstract syntax of one expression of the equation grammar. -/
inductive Expr where
  | num (x : ℚ)
  | var (s : String)
  | avar
  | app (f : String) (a : Expr)
  | med (t l r : Expr)
  | add (l r : Expr)
  | sub (l r : Expr)
  | mul (l r : Expr)
  | div (l r : Expr)
  | neg (a : Expr)
  | pow (l r : Expr)
  deriving DecidableEq, Repr

/-- Evaluate an expression with the current state (the scanner fires
`mk_var`/`mk_num`/`mk_avar` as tokens arrive, then the parser actions
combine the stacked values; only `anonymous_variable` mutates state). -/
def evalE (F : RealFns) (st : EState) : Expr → Except Err (CVal × EState)
  | .num x => .ok (numberC x, st)
  | .var s => .ok (variableC st s, st)
  | .avar =>
    let name := Nat.repr st.whatever ++ "z"
    .ok (variableC st name, { st with whatever := st.whatever + 1 })
  | .app f a => do
    let fv := variableC st f
    let (av, st1) ← evalE F st a
    let r ← application fv av
    .ok (r, st1)
  | .med t l r => do
    let (tv, st1) ← evalE F st t
    let (lv, st2) ← evalE F st1 l
    let (rv, st3) ← evalE F st2 r
    let v ← mediation tv lv rv
    .ok (v, st3)
  | .add l r => do
    let (lv, st1) ← evalE F st l
    let (rv, st2) ← evalE F st1 r
    let v ← Cpx.add lv rv
    .ok (v, st2)
  | .sub l r => do
    let (lv, st1) ← evalE F st l
    let (rv, st2) ← evalE F st1 r
    let v ← Cpx.sub lv rv
    .ok (v, st2)
  | .mul l r => do
    let (lv, st1) ← evalE F st l
    let (rv, st2) ← evalE F st1 r
    let v ← Cpx.mul lv rv
    .ok (v, st2)
  | .div l r => do
    let (lv, st1) ← evalE F st l
    let (rv, st2) ← evalE F st1 r
    let v ← Cpx.div lv rv
    .ok (v, st2)
  | .neg a => do
    let (av, st1) ← evalE F st a
    let v ← Cpx.neg av
    .ok (v, st1)
  | .pow l r => do
    let (lv, st1) ← evalE F st l
    let (rv, st2) ← evalE F st1 r
    let v ← Cpx.pow F lv rv
    .ok (v, st2)

/-- Process the tail of an equation chain `e1 = e2 = ...`: each `mk_eq`
pops right and left, calls `equation`, and pushes the reduced right side
for the next link. -/
def runChain (F : RealFns) (st : EState) (left : CVal) :
    List Expr → Except Err EState
  | [] => .ok st
  | e :: rest => do
    let (v, st1) ← evalE F st e
    let (st2, r) ← equationC st1 left v
    runChain F st2 r rest

/-- Process one command (an equation chain, terminated by `mk_cmd` which
only clears the value stack). -/
def runCmd (F : RealFns) (st : EState) : List Expr → Except Err EState
  | [] => .ok st
  | e :: rest => do
    let (v, st1) ← evalE F st e
    runChain F st1 v rest

/-- Process a `;`-separated command list. -/
def runCmds (F : RealFns) (st : EState) : List (List Expr) → Except Err EState
  | [] => .ok st
  | cmd :: rest => do
    let st1 ← runCmd F st cmd
    runCmds F st1 rest

/-- The IEEE double closest to π — the exact value of Lua's `math.pi`. -/
def piQ : ℚ := 884279719003555 / 281474976710656

/-- Source "Set up the initial environment": `i` and `pi` as constant
part polynomials, plus the seven built-in math functions. -/
def initEState : EState :=
  { env :=
      [ ("i#x", .lin ⟨0, []⟩), ("i#y", .lin ⟨1, []⟩),
        ("pi#x", .lin ⟨piQ, []⟩), ("pi#y", .lin ⟨0, []⟩),
        ("abs", .fn .abs), ("exp", .fn .exp), ("log", .fn .log),
        ("cos", .fn .cos), ("sin", .fn .sin), ("rad", .fn .rad),
        ("deg", .fn .deg) ],
    translation := [],
    whatever := 0 }

/-- Run a whole program (list of commands) from the initial state. -/
def runProg (F : RealFns) (prog : List (List Expr)) : Except Err EState :=
  runCmds F initEState prog

/-- Exit status of the process: a propagated solver error reaches
`yyerror` (which prints `file:line: message at token ...` on stderr) and
then `exit(1)`. -/
def exitCode (r : Except Err EState) : ℕ :=
  match r with
  | .ok _ => 0
  | .error _ => 1

/-- The message text each error carries (source strings verbatim,
including the source's spelling). -/
def errMsg : Err → String
  | .redundantEquation => "redundant equation"
  | .inconsistentEquation => "inconsistent equation"
  | .mulNonNumber => "muliplier and multiplicand both not a number"
  | .divisorNotNumber => "divisor is not a number"
  | .expNotNumber => "exponent not a number"
  | .expMustBeReal => "exponent must be real"
  | .baseNotNumber => "exponentiation base not a number"
  | .funUsedAsVar => "function used as a variable"
  | .notAFunctionCrash => "attempt to call method tostring (a nil value)"
  | .luaNilIndex => "table index is nil"

/-- Dummy instantiation of the transcendental helpers, used by concrete
runs that never exponentiate. -/
def noFns : RealFns := ⟨fun _ => (0, 0), fun _ => (0, 0)⟩

/-! Semantic predicates used by the invariant claims. -/

/-- Keys of the environment. -/
def keysE (env : List (String × EnvVal)) : List String :=
  keysA env

/-- Whether a name is currently bound to a polynomial (a dependent
variable) in the environment. -/
def isPolyKey (env : List (String × EnvVal)) (v : String) : Bool :=
  match lookupA env v with
  | some (.lin _) => true
  | _ => false

/-- View an environment value as a polynomial, math functions as the
trivially well-formed zero polynomial. -/
def linOrZero : EnvVal → LinPoly
  | .lin p => p
  | .fn _ => ⟨0, []⟩

/-- No variable of `p` is bound to a polynomial in `env`. -/
def okVars (env : List (String × EnvVal)) (p : LinPoly) : Prop :=
  ∀ v ∈ keysP p, isPolyKey env v = false

/-- A well-formed polynomial relative to `env`: distinct variables, none
of them a dependent variable. -/
def goodP (env : List (String × EnvVal)) (p : LinPoly) : Prop :=
  (keysP p).Nodup ∧ okVars env p

/-- Well-formedness of an environment value relative to `env`. -/
def goodEV (env : List (String × EnvVal)) (x : EnvVal) : Prop :=
  goodP env (linOrZero x)

/-- Well-formedness of a stack value relative to `env`. -/
def goodC (env : List (String × EnvVal)) (z : CVal) : Prop :=
  goodEV env z.1 ∧ goodEV env z.2

/-- The solver-state invariant: distinct environment keys, and every
stored polynomial is substitution-closed (refers to no dependent
variable). -/
def InvE (st : EState) : Prop :=
  (keysE st.env).Nodup ∧ ∀ we ∈ st.env, goodEV st.env we.2

/-! Concrete programs and states referenced by the theorems. -/

/-- Program `x = 0.0000001 * y ; y = 10000000`. -/
def c8ProgA : List (List Expr) :=
  [ [Expr.var "x", Expr.mul (Expr.num (1 / 10000000)) (Expr.var "y")],
    [Expr.var "y", Expr.num 10000000] ]

/-- The same two equations in the other order. -/
def c8ProgB : List (List Expr) :=
  [ [Expr.var "y", Expr.num 10000000],
    [Expr.var "x", Expr.mul (Expr.num (1 / 10000000)) (Expr.var "y")] ]

/-- Program `b = 1 ; a = a + b*i`. -/
def c10Prog : List (List Expr) :=
  [ [Expr.var "b", Expr.num 1],
    [Expr.var "a", Expr.add (Expr.var "a") (Expr.mul (Expr.var "b") (Expr.var "i"))] ]

/-- The state after `b = 1` alone. -/
def c10StB : EState :=
  ((runProg noFns [[Expr.var "b", Expr.num 1]]).toOption).getD initEState

/-- Program `x = abs 4`: the built-in `abs` applied to the constant 4. -/
def c3Prog : List (List Expr) :=
  [ [Expr.var "x", Expr.app "abs" (Expr.num 4)] ]

/-- Program `a = 2 ; b = a + c` (second equation leaves a genuine
dependency in the environment). -/
def c1wProg : List (List Expr) :=
  [ [Expr.var "a", Expr.num 2],
    [Expr.var "b", Expr.add (Expr.var "a") (Expr.var "c")] ]

/-- Final state of `c1wProg`. -/
def c1wSt : EState :=
  ((runProg noFns c1wProg).toOption).getD initEState

/-- A tiny environment in which `a#x` depends on `b#x`. -/
def c6St : EState :=
  ⟨[("a#x", .lin ⟨0, [("b#x", 1)]⟩)], [], 0⟩

/-- The equation polynomial `b#x - 5`. -/
def c6P : LinPoly := ⟨-5, [("b#x", 1)]⟩

/-- The state after solving `b#x - 5 = 0` in `c6St`. -/
def c6StAfter : EState :=
  ((solve c6St c6P).toOption).getD initEState

/-- A polynomial with one live and one sub-tolerance coefficient. -/
def c9wP : LinPoly := ⟨5, [("x#x", 2), ("y#x", 1 / 2000000)]⟩

/-- Coefficient of `v` in a raw coefficient table. -/
def coeffL (ls : List (String × ℚ)) (v : String) : ℚ :=
  (lookupA ls v).getD 0

/-! Association-list lemmas. -/

theorem mem_keysA_iff {α : Type} (l : List (String × α)) (v : String) :
    v ∈ keysA l ↔ ∃ x, (v, x) ∈ l := by
  constructor
  · intro h
    rcases List.mem_map.mp h with ⟨e, he, rfl⟩
    exact ⟨e.2, he⟩
  · rintro ⟨x, hx⟩
    exact List.mem_map.mpr ⟨(v, x), hx, rfl⟩

theorem lookupA_eq_none_iff {α : Type} (l : List (String × α)) (v : String) :
    lookupA l v = none ↔ v ∉ keysA l := by
  induction l with
  | nil => simp [lookupA, keysA]
  | cons e t ih =>
    simp only [lookupA, keysA, List.map_cons, List.mem_cons]
    by_cases h : e.1 = v
    · simp [h]
    · simp only [if_neg h]
      rw [ih]
      simp [keysA, Ne.symm h]

theorem lookupA_mem {α : Type} {l : List (String × α)} {v : String} {x : α}
    (h : lookupA l v = some x) : (v, x) ∈ l := by
  induction l with
  | nil => simp [lookupA] at h
  | cons e t ih =>
    simp only [lookupA] at h
    by_cases he : e.1 = v
    · rw [if_pos he] at h
      exact List.mem_cons.mpr (Or.inl (by cases e; simp_all))
    · rw [if_neg he] at h
      exact List.mem_cons_of_mem _ (ih h)

theorem lookupA_mem_keys {α : Type} {l : List (String × α)} {v : String} {x : α}
    (h : lookupA l v = some x) : v ∈ keysA l :=
  (mem_keysA_iff l v).mpr ⟨x, lookupA_mem h⟩

theorem lookupA_setKeyA_self {α : Type} (l : List (String × α)) (v : String) (x : α) :
    lookupA (setKeyA l v x) v = some x := by
  induction l with
  | nil => simp [setKeyA, lookupA]
  | cons e t ih =>
    by_cases h : e.1 = v
    · simp [setKeyA, h, lookupA]
    · simp [setKeyA, h, lookupA, ih]

theorem lookupA_setKeyA_ne {α : Type} (l : List (String × α)) (v w : String) (x : α)
    (h : w ≠ v) : lookupA (setKeyA l v x) w = lookupA l w := by
  induction l with
  | nil => simp [setKeyA, lookupA, Ne.symm h]
  | cons e t ih =>
    by_cases he : e.1 = v
    · have hvw : v ≠ w := Ne.symm h
      have hew : e.1 ≠ w := by rw [he]; exact hvw
      simp [setKeyA, he, lookupA, hvw, hew]
    · simp only [setKeyA, if_neg he, lookupA]
      by_cases hw : e.1 = w
      · simp [hw]
      · simp [hw, ih]

theorem keysA_setKeyA_of_mem {α : Type} {l : List (String × α)} {v : String} (x : α)
    (h : v ∈ keysA l) : keysA (setKeyA l v x) = keysA l := by
  induction l with
  | nil => simp [keysA] at h
  | cons e t ih =>
    by_cases he : e.1 = v
    · simp [setKeyA, he, keysA]
    · simp only [keysA, List.map_cons, List.mem_cons] at h
      rcases h with h | h
      · exact absurd h.symm he
      · have h2 := ih h
        simp only [keysA] at h2
        simp [setKeyA, he, keysA, h2]

theorem keysA_setKeyA_of_not_mem {α : Type} {l : List (String × α)} {v : String} (x : α)
    (h : v ∉ keysA l) : keysA (setKeyA l v x) = keysA l ++ [v] := by
  induction l with
  | nil => simp [setKeyA, keysA]
  | cons e t ih =>
    simp only [keysA, List.map_cons, List.mem_cons] at h
    push_neg at h
    have he : e.1 ≠ v := fun hh => h.1 hh.symm
    have h2 := ih h.2
    simp only [keysA] at h2
    simp [setKeyA, he, keysA, h2]

theorem nodup_setKeyA {α : Type} {l : List (String × α)} {v : String} (x : α)
    (h : (keysA l).Nodup) : (keysA (setKeyA l v x)).Nodup := by
  by_cases hm : v ∈ keysA l
  · rw [keysA_setKeyA_of_mem x hm]; exact h
  · rw [keysA_setKeyA_of_not_mem x hm]
    simp [List.nodup_append, h, hm]

theorem eraseKeyA_sublist {α : Type} (l : List (String × α)) (v : String) :
    (eraseKeyA l v).Sublist l := by
  induction l with
  | nil => simp [eraseKeyA]
  | cons e t ih =>
    by_cases h : e.1 = v
    · simp [eraseKeyA, h]
    · simpa [eraseKeyA, h] using ih.cons₂ e

theorem keysA_eraseKeyA_sublist {α : Type} (l : List (String × α)) (v : String) :
    (keysA (eraseKeyA l v)).Sublist (keysA l) :=
  (eraseKeyA_sublist l v).map Prod.fst

theorem nodup_keysA_eraseKeyA {α : Type} {l : List (String × α)} {v : String}
    (h : (keysA l).Nodup) : (keysA (eraseKeyA l v)).Nodup :=
  (keysA_eraseKeyA_sublist l v).nodup h

theorem not_mem_keysA_eraseKeyA {α : Type} {l : List (String × α)} {v : String}
    (h : (keysA l).Nodup) : v ∉ keysA (eraseKeyA l v) := by
  induction l with
  | nil => simp [eraseKeyA, keysA]
  | cons e t ih =>
    simp only [keysA, List.map_cons, List.nodup_cons] at h
    by_cases he : e.1 = v
    · have h1 : v ∉ List.map Prod.fst t := he ▸ h.1
      simpa only [eraseKeyA, if_pos he, keysA] using h1
    · have h2 := ih h.2
      simp only [keysA] at h2
      simp only [eraseKeyA, if_neg he, keysA, List.map_cons, List.mem_cons]
      push_neg
      exact ⟨fun hh => he hh.symm, h2⟩

theorem lookupA_append_of_some {α : Type} {l1 : List (String × α)} (l2 : List (String × α))
    {v : String} {x : α} (h : lookupA l1 v = some x) :
    lookupA (l1 ++ l2) v = some x := by
  induction l1 with
  | nil => simp [lookupA] at h
  | cons e t ih =>
    simp only [lookupA] at h ⊢
    by_cases he : e.1 = v
    · simpa [he] using h
    · rw [if_neg he] at h
      simpa [he] using ih h

theorem lookupA_append_of_none {α : Type} {l1 : List (String × α)} (l2 : List (String × α))
    {v : String} (h : lookupA l1 v = none) :
    lookupA (l1 ++ l2) v = lookupA l2 v := by
  induction l1 with
  | nil => simp [lookupA]
  | cons e t ih =>
    simp only [lookupA] at h ⊢
    by_cases he : e.1 = v
    · simp [he] at h
    · rw [if_neg he] at h
      simpa [he] using ih h

theorem lookupA_mapSnd {α β : Type} (h : α → β) (l : List (String × α)) (v : String) :
    lookupA (l.map (fun e => (e.1, h e.2))) v = (lookupA l v).map h := by
  induction l with
  | nil => simp [lookupA]
  | cons e t ih =>
    by_cases he : e.1 = v
    · simp [lookupA, he]
    · simp [lookupA, he, ih]

theorem keysA_mapSnd {α β : Type} (h : α → β) (l : List (String × α)) :
    keysA (l.map (fun e => (e.1, h e.2))) = keysA l := by
  induction l with
  | nil => simp [keysA]
  | cons e t ih => simp [keysA, ih]

theorem mem_setKeyA {α : Type} {l : List (String × α)} {k : String} {y : α}
    {e : String × α} (h : e ∈ setKeyA l k y) : e ∈ l ∨ e = (k, y) := by
  induction l with
  | nil => simpa [setKeyA] using h
  | cons f t ih =>
    by_cases hf : f.1 = k
    · simp only [setKeyA, if_pos hf, List.mem_cons] at h
      rcases h with h | h
      · right; exact h
      · left; exact List.mem_cons_of_mem _ h
    · simp only [setKeyA, if_neg hf, List.mem_cons] at h
      rcases h with h | h
      · left; simp [h]
      · rcases ih h with h | h
        · left; exact List.mem_cons_of_mem _ h
        · right; exact h

/-! Tolerance-test lemmas. -/

theorem is_zero_true_iff (x : ℚ) : is_zero x = true ↔ |x| < tol := by
  simp [is_zero]

theorem is_zero_false_iff (x : ℚ) : is_zero x = false ↔ tol ≤ |x| := by
  simp [is_zero, not_lt]

/-! Number-view lemmas. -/

theorem number_eq_some_iff (p : LinPoly) (c : ℚ) :
    p.number = some c ↔ p.ls = [] ∧ p.c = c := by
  cases h : p.ls with
  | nil => simp [LinPoly.number, h]
  | cons e t => simp [LinPoly.number, h]

theorem number_eq_none_iff (p : LinPoly) : p.number = none ↔ p.ls ≠ [] := by
  cases h : p.ls with
  | nil => simp [LinPoly.number, h]
  | cons e t => simp [LinPoly.number, h]

/-! Coefficient lemmas for the merge loops. -/

theorem coeffOf_eq_coeffL (p : LinPoly) (v : String) : coeffOf p v = coeffL p.ls v := rfl

theorem coeffL_cons (e : String × ℚ) (t : List (String × ℚ)) (v : String) :
    coeffL (e :: t) v = if e.1 = v then e.2 else coeffL t v := by
  simp only [coeffL, lookupA]
  by_cases h : e.1 = v
  · simp [h]
  · simp [h]

theorem coeffL_addInto (ls : List (String × ℚ)) (w : String) (c : ℚ) (v : String) :
    coeffL (addInto ls w c) v = coeffL ls v + if v = w then c else 0 := by
  unfold addInto
  cases h : lookupA ls w with
  | some c1 =>
    by_cases hv : v = w
    · subst hv
      simp [coeffL, lookupA_setKeyA_self, h]
    · simp [coeffL, lookupA_setKeyA_ne _ _ _ _ hv, hv]
  | none =>
    by_cases hv : v = w
    · subst hv
      rw [coeffL, lookupA_append_of_none _ h]
      simp [coeffL, lookupA, h]
    · cases hx : lookupA ls v with
      | some x =>
        rw [coeffL, lookupA_append_of_some _ hx]
        simp [coeffL, hx, hv]
      | none =>
        rw [coeffL, lookupA_append_of_none _ hx]
        simp [lookupA, Ne.symm hv, coeffL, hx, hv]

theorem coeffL_subInto (ls : List (String × ℚ)) (w : String) (c : ℚ) (v : String) :
    coeffL (subInto ls w c) v = coeffL ls v - if v = w then c else 0 := by
  unfold subInto
  cases h : lookupA ls w with
  | some c1 =>
    by_cases hv : v = w
    · subst hv
      simp [coeffL, lookupA_setKeyA_self, h]
    · simp [coeffL, lookupA_setKeyA_ne _ _ _ _ hv, hv]
  | none =>
    by_cases hv : v = w
    · subst hv
      rw [coeffL, lookupA_append_of_none _ h]
      simp [coeffL, lookupA, h]
    · cases hx : lookupA ls v with
      | some x =>
        rw [coeffL, lookupA_append_of_some _ hx]
        simp [coeffL, hx, hv]
      | none =>
        rw [coeffL, lookupA_append_of_none _ hx]
        simp [lookupA, Ne.symm hv, coeffL, hx, hv]

theorem coeffL_mergeAdd (v : String) :
    ∀ (l acc : List (String × ℚ)), (keysA l).Nodup →
      coeffL (mergeAdd acc l) v = coeffL acc v + coeffL l v
  | [], acc, _ => by simp [mergeAdd, coeffL, lookupA]
  | e :: t, acc, hnd => by
    have hnd' : e.1 ∉ keysA t ∧ (keysA t).Nodup := by
      simpa [keysA] using hnd
    rw [mergeAdd, coeffL_mergeAdd v t _ hnd'.2, coeffL_addInto, coeffL_cons]
    by_cases hv : v = e.1
    · subst hv
      have h0 : coeffL t e.1 = 0 := by
        simp [coeffL, (lookupA_eq_none_iff t e.1).mpr hnd'.1]
      rw [if_pos rfl, if_pos rfl, h0, add_zero]
    · have hne : e.1 ≠ v := fun hh => hv hh.symm
      rw [if_neg hv, if_neg hne, add_zero]

theorem coeffL_mergeSub (v : String) :
    ∀ (l acc : List (String × ℚ)), (keysA l).Nodup →
      coeffL (mergeSub acc l) v = coeffL acc v - coeffL l v
  | [], acc, _ => by simp [mergeSub, coeffL, lookupA]
  | e :: t, acc, hnd => by
    have hnd' : e.1 ∉ keysA t ∧ (keysA t).Nodup := by
      simpa [keysA] using hnd
    rw [mergeSub, coeffL_mergeSub v t _ hnd'.2, coeffL_subInto, coeffL_cons]
    by_cases hv : v = e.1
    · subst hv
      have h0 : coeffL t e.1 = 0 := by
        simp [coeffL, (lookupA_eq_none_iff t e.1).mpr hnd'.1]
      rw [if_pos rfl, if_pos rfl, h0, sub_zero]
    · have hne : e.1 ≠ v := fun hh => hv hh.symm
      rw [if_neg hv, if_neg hne, sub_zero]

/-! Key-set lemmas for the merge loops. -/

theorem keysA_append {α : Type} (l1 l2 : List (String × α)) :
    keysA (l1 ++ l2) = keysA l1 ++ keysA l2 :=
  List.map_append _ _ _

theorem mem_keysA_addInto {ls : List (String × ℚ)} {w : String} {c : ℚ} {u : String}
    (hu : u ∈ keysA (addInto ls w c)) : u ∈ keysA ls ∨ u = w := by
  unfold addInto at hu
  cases h : lookupA ls w with
  | some c1 =>
    rw [h] at hu
    rw [keysA_setKeyA_of_mem _ (lookupA_mem_keys h)] at hu
    exact Or.inl hu
  | none =>
    rw [h, keysA_append] at hu
    simp only [List.mem_append] at hu
    rcases hu with hu | hu
    · exact Or.inl hu
    · simp only [keysA, List.map_cons, List.map_nil, List.mem_singleton] at hu
      exact Or.inr hu

theorem mem_keysA_subInto {ls : List (String × ℚ)} {w : String} {c : ℚ} {u : String}
    (hu : u ∈ keysA (subInto ls w c)) : u ∈ keysA ls ∨ u = w := by
  unfold subInto at hu
  cases h : lookupA ls w with
  | some c1 =>
    rw [h] at hu
    rw [keysA_setKeyA_of_mem _ (lookupA_mem_keys h)] at hu
    exact Or.inl hu
  | none =>
    rw [h, keysA_append] at hu
    simp only [List.mem_append] at hu
    rcases hu with hu | hu
    · exact Or.inl hu
    · simp only [keysA, List.map_cons, List.map_nil, List.mem_singleton] at hu
      exact Or.inr hu

theorem nodup_addInto {ls : List (String × ℚ)} (w : String) (c : ℚ)
    (h : (keysA ls).Nodup) : (keysA (addInto ls w c)).Nodup := by
  unfold addInto
  cases hl : lookupA ls w with
  | some c1 => exact nodup_setKeyA _ h
  | none =>
    have hw : w ∉ keysA ls := (lookupA_eq_none_iff ls w).mp hl
    rw [keysA_append]
    show (keysA ls ++ [w]).Nodup
    exact List.Nodup.append h (List.nodup_singleton w)
      (by intro a ha hb; exact hw (List.mem_singleton.mp hb ▸ ha))

theorem nodup_subInto {ls : List (String × ℚ)} (w : String) (c : ℚ)
    (h : (keysA ls).Nodup) : (keysA (subInto ls w c)).Nodup := by
  unfold subInto
  cases hl : lookupA ls w with
  | some c1 => exact nodup_setKeyA _ h
  | none =>
    have hw : w ∉ keysA ls := (lookupA_eq_none_iff ls w).mp hl
    rw [keysA_append]
    show (keysA ls ++ [w]).Nodup
    exact List.Nodup.append h (List.nodup_singleton w)
      (by intro a ha hb; exact hw (List.mem_singleton.mp hb ▸ ha))

theorem mem_keysA_mergeAdd {u : String} :
    ∀ (l acc : List (String × ℚ)), u ∈ keysA (mergeAdd acc l) →
      u ∈ keysA acc ∨ u ∈ keysA l
  | [], acc, hu => Or.inl hu
  | e :: t, acc, hu => by
    rw [mergeAdd] at hu
    rcases mem_keysA_mergeAdd t _ hu with h | h
    · rcases mem_keysA_addInto h with h | h
      · exact Or.inl h
      · right
        simp [keysA, h]
    · right
      simp [keysA] at h ⊢
      exact Or.inr h

theorem mem_keysA_mergeSub {u : String} :
    ∀ (l acc : List (String × ℚ)), u ∈ keysA (mergeSub acc l) →
      u ∈ keysA acc ∨ u ∈ keysA l
  | [], acc, hu => Or.inl hu
  | e :: t, acc, hu => by
    rw [mergeSub] at hu
    rcases mem_keysA_mergeSub t _ hu with h | h
    · rcases mem_keysA_subInto h with h | h
      · exact Or.inl h
      · right
        simp [keysA, h]
    · right
      simp [keysA] at h ⊢
      exact Or.inr h

theorem nodup_mergeAdd :
    ∀ (l acc : List (String × ℚ)), (keysA acc).Nodup →
      (keysA (mergeAdd acc l)).Nodup
  | [], _, h => h
  | e :: t, acc, h => by
    rw [mergeAdd]
    exact nodup_mergeAdd t _ (nodup_addInto e.1 e.2 h)

theorem nodup_mergeSub :
    ∀ (l acc : List (String × ℚ)), (keysA acc).Nodup →
      (keysA (mergeSub acc l)).Nodup
  | [], _, h => h
  | e :: t, acc, h => by
    rw [mergeSub]
    exact nodup_mergeSub t _ (nodup_subInto e.1 e.2 h)

/-! Polynomial-level corollaries. -/

theorem coeffOf_add (p1 p2 : LinPoly) (v : String) (h2 : (keysP p2).Nodup) :
    coeffOf (p1.add p2) v = coeffOf p1 v + coeffOf p2 v :=
  coeffL_mergeAdd v p2.ls p1.ls h2

theorem coeffOf_sub (p1 p2 : LinPoly) (v : String) (h2 : (keysP p2).Nodup) :
    coeffOf (p1.sub p2) v = coeffOf p1 v - coeffOf p2 v :=
  coeffL_mergeSub v p2.ls p1.ls h2

theorem coeffOf_scale (k : ℚ) (p : LinPoly) (v : String) :
    coeffOf (p.scale k) v = k * coeffOf p v := by
  simp only [coeffOf, LinPoly.scale, lookupA_mapSnd]
  cases h : lookupA p.ls v with
  | some x => simp
  | none => simp

theorem mem_keysP_add {p1 p2 : LinPoly} {u : String}
    (h : u ∈ keysP (p1.add p2)) : u ∈ keysP p1 ∨ u ∈ keysP p2 :=
  mem_keysA_mergeAdd p2.ls p1.ls h

theorem mem_keysP_sub {p1 p2 : LinPoly} {u : String}
    (h : u ∈ keysP (p1.sub p2)) : u ∈ keysP p1 ∨ u ∈ keysP p2 :=
  mem_keysA_mergeSub p2.ls p1.ls h

theorem nodup_keysP_add {p1 : LinPoly} (p2 : LinPoly)
    (h : (keysP p1).Nodup) : (keysP (p1.add p2)).Nodup :=
  nodup_mergeAdd p2.ls p1.ls h

theorem nodup_keysP_sub {p1 : LinPoly} (p2 : LinPoly)
    (h : (keysP p1).Nodup) : (keysP (p1.sub p2)).Nodup :=
  nodup_mergeSub p2.ls p1.ls h

theorem keysP_scale (k : ℚ) (p : LinPoly) : keysP (p.scale k) = keysP p :=
  keysA_mapSnd _ p.ls

theorem keysP_neg (p : LinPoly) : keysP p.neg = keysP p :=
  keysA_mapSnd _ p.ls

theorem keysP_zap_sublist (p : LinPoly) : (keysP p.zap).Sublist (keysP p) :=
  (List.filter_sublist p.ls).map Prod.fst

theorem nodup_keysP_zap {p : LinPoly} (h : (keysP p).Nodup) :
    (keysP p.zap).Nodup :=
  (keysP_zap_sublist p).nodup h

theorem mem_zap_tol {p : LinPoly} {e : String × ℚ} (h : e ∈ (p.zap).ls) :
    tol ≤ |e.2| := by
  have := List.mem_filter.mp h
  have hz : is_zero e.2 = false := by
    simpa using this.2
  exact (is_zero_false_iff e.2).mp hz

/-! Well-formedness lemmas for the polynomial operations. -/

theorem goodP_const (env : List (String × EnvVal)) (x : ℚ) : goodP env ⟨x, []⟩ := by
  constructor
  · simp [keysP, keysA]
  · intro v hv
    simp [keysP, keysA] at hv

theorem goodEV_fn (env : List (String × EnvVal)) (f : FunId) : goodEV env (.fn f) :=
  goodP_const env 0

theorem goodEV_lin_iff (env : List (String × EnvVal)) (p : LinPoly) :
    goodEV env (.lin p) ↔ goodP env p := Iff.rfl

theorem goodP_add {env : List (String × EnvVal)} {p1 p2 : LinPoly}
    (h1 : goodP env p1) (h2 : goodP env p2) : goodP env (p1.add p2) := by
  refine ⟨nodup_keysP_add p2 h1.1, fun v hv => ?_⟩
  rcases mem_keysP_add hv with h | h
  · exact h1.2 v h
  · exact h2.2 v h

theorem goodP_sub {env : List (String × EnvVal)} {p1 p2 : LinPoly}
    (h1 : goodP env p1) (h2 : goodP env p2) : goodP env (p1.sub p2) := by
  refine ⟨nodup_keysP_sub p2 h1.1, fun v hv => ?_⟩
  rcases mem_keysP_sub hv with h | h
  · exact h1.2 v h
  · exact h2.2 v h

theorem goodP_neg {env : List (String × EnvVal)} {p : LinPoly}
    (h : goodP env p) : goodP env p.neg := by
  refine ⟨?_, fun v hv => ?_⟩
  · rw [keysP_neg]; exact h.1
  · rw [keysP_neg] at hv; exact h.2 v hv

theorem goodP_scale {env : List (String × EnvVal)} (k : ℚ) {p : LinPoly}
    (h : goodP env p) : goodP env (p.scale k) := by
  refine ⟨?_, fun v hv => ?_⟩
  · rw [keysP_scale]; exact h.1
  · rw [keysP_scale] at hv; exact h.2 v hv

theorem goodP_zap {env : List (String × EnvVal)} {p : LinPoly}
    (h : goodP env p) : goodP env p.zap := by
  refine ⟨nodup_keysP_zap h.1, fun v hv => ?_⟩
  exact h.2 v ((keysP_zap_sublist p).subset hv)

theorem goodP_mul {env : List (String × EnvVal)} {p1 p2 r : LinPoly}
    (h1 : goodP env p1) (h2 : goodP env p2)
    (h : LinPoly.mul p1 p2 = .ok r) : goodP env r := by
  unfold LinPoly.mul at h
  cases hn1 : p1.number with
  | some c =>
    rw [hn1] at h
    simp only [Except.ok.injEq] at h
    exact h ▸ goodP_scale c h2
  | none =>
    rw [hn1] at h
    cases hn2 : p2.number with
    | some c =>
      rw [hn2] at h
      simp only [Except.ok.injEq] at h
      exact h ▸ goodP_scale c h1
    | none =>
      rw [hn2] at h
      simp at h

/-! Facts about `Linear.subst`. -/

theorem nodup_keysP_subst {p1 p2 : LinPoly} {v2 : String}
    (h1 : (keysP p1).Nodup) : (keysP (p1.subst p2 v2).1).Nodup := by
  unfold LinPoly.subst
  cases hl : lookupA p1.ls v2 with
  | none => simpa using h1
  | some c1 =>
    show (keysP (substPoly p1 p2 v2 c1)).Nodup
    exact nodup_keysP_zap (nodup_keysP_add _ (nodup_keysA_eraseKeyA h1))

theorem mem_keysP_subst {p1 p2 : LinPoly} {v2 u : String}
    (h1 : (keysP p1).Nodup) (hu : u ∈ keysP (p1.subst p2 v2).1) :
    (u ∈ keysP p1 ∧ u ≠ v2) ∨ u ∈ keysP p2 := by
  unfold LinPoly.subst at hu
  cases hl : lookupA p1.ls v2 with
  | none =>
    rw [hl] at hu
    have hv2 : v2 ∉ keysA p1.ls := (lookupA_eq_none_iff _ _).mp hl
    exact Or.inl ⟨hu, fun hh => hv2 (hh ▸ hu)⟩
  | some c1 =>
    rw [hl] at hu
    have hu1 := (keysP_zap_sublist _).subset hu
    rcases mem_keysP_add hu1 with h | h
    · have hmem : u ∈ keysA p1.ls := (keysA_eraseKeyA_sublist _ _).subset h
      have hne : u ≠ v2 := by
        intro hh
        subst hh
        exact (not_mem_keysA_eraseKeyA h1) h
      exact Or.inl ⟨hmem, hne⟩
    · rw [keysP_scale] at h
      exact Or.inr h

/-! Pivot-scan lemmas. -/

theorem pivot_aux_some :
    ∀ (ls : List (String × ℚ)) (acc : ℚ × Option (String × ℚ)),
      acc.2.isSome = true →
      (ls.foldl (fun acc e => if |e.2| > acc.1 then (|e.2|, some e) else acc) acc).2.isSome = true
  | [], _, h => h
  | e :: t, acc, h => by
    rw [List.foldl_cons]
    by_cases hc : |e.2| > acc.1
    · exact pivot_aux_some t _ (by simp [hc])
    · exact pivot_aux_some t _ (by simpa [hc] using h)

theorem pivot_aux_mem :
    ∀ (ls : List (String × ℚ)) (acc : ℚ × Option (String × ℚ)) {v : String} {c : ℚ},
      (ls.foldl (fun acc e => if |e.2| > acc.1 then (|e.2|, some e) else acc) acc).2 = some (v, c) →
      (v, c) ∈ ls ∨ acc.2 = some (v, c)
  | [], _, _, _, h => Or.inr h
  | e :: t, acc, v, c, h => by
    rw [List.foldl_cons] at h
    by_cases hc : |e.2| > acc.1
    · rw [if_pos hc] at h
      rcases pivot_aux_mem t _ h with h | h
      · exact Or.inl (List.mem_cons_of_mem _ h)
      · have he : e = (v, c) := by simpa using h
        exact Or.inl (he ▸ List.mem_cons_self e t)
    · rw [if_neg hc] at h
      rcases pivot_aux_mem t _ h with h | h
      · exact Or.inl (List.mem_cons_of_mem _ h)
      · exact Or.inr h

theorem tol_pos : (0 : ℚ) < tol := by norm_num [tol]

theorem pivotScan_of_nonempty {ls : List (String × ℚ)} (hne : ls ≠ [])
    (hall : ∀ e ∈ ls, tol ≤ |e.2|) :
    ∃ v c, (pivotScan ls).2 = some (v, c) ∧ (v, c) ∈ ls ∧ tol ≤ |c| := by
  obtain ⟨e, t, rfl⟩ := List.exists_cons_of_ne_nil hne
  unfold pivotScan
  rw [List.foldl_cons]
  have h1 : |e.2| > (0 : ℚ) :=
    lt_of_lt_of_le tol_pos (hall e (List.mem_cons_self e t))
  rw [if_pos h1]
  have hsome := pivot_aux_some t (|e.2|, some e) (by simp)
  obtain ⟨⟨v, c⟩, hvc⟩ := Option.isSome_iff_exists.mp hsome
  have hmem : (v, c) ∈ e :: t := by
    rcases pivot_aux_mem t _ hvc with h | h
    · exact List.mem_cons_of_mem _ h
    · have he : e = (v, c) := by simpa using h
      exact he ▸ List.mem_cons_self e t
  refine ⟨v, c, hvc, hmem, ?_⟩
  have := hall (v, c) hmem
  exact this

/-! Environment shape after one `solve` step. -/

theorem solveStep_env (st : EState) (p : LinPoly) (vmax : String) (cmax : ℚ) :
    (solveStep st p vmax cmax).env =
      setKeyA (st.env.map (fun we => (we.1, substEnvVal (pivotPoly p vmax cmax) vmax we.2)))
        vmax (.lin (pivotPoly p vmax cmax)) := rfl

theorem isPolyKey_solveEnv {env : List (String × EnvVal)} {q : LinPoly} {vmax u : String}
    (hne : u ≠ vmax) :
    isPolyKey (setKeyA (env.map (fun we => (we.1, substEnvVal q vmax we.2))) vmax (.lin q)) u
      = isPolyKey env u := by
  unfold isPolyKey
  rw [lookupA_setKeyA_ne _ _ _ _ hne, lookupA_mapSnd]
  cases h : lookupA env u with
  | none => simp
  | some x => cases x <;> simp [substEnvVal]

theorem solveStep_preserves {st : EState} {p : LinPoly} {vmax : String} {cmax : ℚ}
    (hInv : InvE st) (hN : (keysP p).Nodup) (hok : okVars st.env p) :
    InvE (solveStep st p vmax cmax) ∧ (solveStep st p vmax cmax).whatever = st.whatever := by
  constructor
  case right => rfl
  have hqnd : (keysP (pivotPoly p vmax cmax)).Nodup := by
    unfold pivotPoly
    refine nodup_keysP_zap ?_
    rw [keysP_scale]
    exact nodup_keysA_eraseKeyA hN
  have hqmem : ∀ u ∈ keysP (pivotPoly p vmax cmax), u ∈ keysP p ∧ u ≠ vmax := by
    intro u hu
    unfold pivotPoly at hu
    have hu1 := (keysP_zap_sublist _).subset hu
    rw [keysP_scale] at hu1
    constructor
    · exact (keysA_eraseKeyA_sublist _ _).subset hu1
    · intro hh
      subst hh
      exact (not_mem_keysA_eraseKeyA hN) hu1
  have hqok : ∀ u ∈ keysP (pivotPoly p vmax cmax), isPolyKey st.env u = false :=
    fun u hu => hok u ((hqmem u hu).1)
  constructor
  · -- keys of the new environment are distinct
    show (keysE (solveStep st p vmax cmax).env).Nodup
    rw [keysE, solveStep_env]
    refine nodup_setKeyA _ ?_
    rw [keysA_mapSnd]
    exact hInv.1
  · -- every entry of the new environment is substitution-closed
    intro we hwe
    rw [solveStep_env] at hwe
    rcases mem_setKeyA hwe with hwe | hwe
    · rcases List.mem_map.mp hwe with ⟨orig, horig, hmapeq⟩
      have hval : we.2 = substEnvVal (pivotPoly p vmax cmax) vmax orig.2 := by
        rw [← hmapeq]
      rw [hval]
      cases hcase : orig.2 with
      | fn f => exact goodEV_fn _ f
      | lin R =>
        have hgood : goodP st.env R := by
          have hg := hInv.2 orig horig
          rw [hcase] at hg
          exact hg
        show goodP _ ((R.subst (pivotPoly p vmax cmax) vmax).1)
        refine ⟨nodup_keysP_subst hgood.1, fun u hu => ?_⟩
        rcases mem_keysP_subst hgood.1 hu with ⟨hmem, hne⟩ | hmem
        · rw [solveStep_env, isPolyKey_solveEnv hne]
          exact hgood.2 u hmem
        · rw [solveStep_env, isPolyKey_solveEnv ((hqmem u hmem).2)]
          exact hqok u hmem
    · have hval : we.2 = EnvVal.lin (pivotPoly p vmax cmax) := by rw [hwe]
      rw [hval]
      show goodP _ (pivotPoly p vmax cmax)
      refine ⟨hqnd, fun u hu => ?_⟩
      rw [solveStep_env, isPolyKey_solveEnv ((hqmem u hu).2)]
      exact hqok u hu

theorem solve_preserves {st st' : EState} {p0 : LinPoly}
    (hInv : InvE st) (hN : (keysP p0).Nodup) (hok : okVars st.env p0)
    (hs : solve st p0 = .ok st') :
    InvE st' ∧ st'.whatever = st.whatever := by
  unfold solve at hs
  cases hnum : (p0.zap).number with
  | some c =>
    rw [hnum] at hs
    by_cases hz : is_zero c <;> simp [hz] at hs
  | none =>
    rw [hnum] at hs
    cases hpiv : (pivotScan (p0.zap).ls).2 with
    | none =>
      rw [hpiv] at hs
      simp at hs
    | some vc =>
      obtain ⟨vmax, cmax⟩ := vc
      rw [hpiv] at hs
      simp only [Except.ok.injEq] at hs
      subst hs
      have hNz : (keysP p0.zap).Nodup := nodup_keysP_zap hN
      have hokz : okVars st.env p0.zap := fun u hu =>
        hok u ((keysP_zap_sublist p0).subset hu)
      exact solveStep_preserves hInv hNz hokz

/-! Except-bind reduction helpers. -/

theorem except_bind_ok {ε α β : Type} (a : α) (f : α → Except ε β) :
    (Except.ok a >>= f : Except ε β) = f a := rfl

theorem except_bind_err {ε α β : Type} (e : ε) (f : α → Except ε β) :
    (Except.error e >>= f : Except ε β) = Except.error e := rfl

/-! Well-formedness through the complex operations. -/

theorem goodP_of_evLin {env : List (String × EnvVal)} {x : EnvVal} {p : LinPoly}
    (hx : goodEV env x) (h : evLin x = .ok p) : goodP env p := by
  cases x with
  | lin q =>
    simp only [evLin, Except.ok.injEq] at h
    exact h ▸ hx
  | fn f => simp [evLin] at h

theorem goodP_evMul {env : List (String × EnvVal)} {a b : EnvVal} {r : LinPoly}
    (ha : goodEV env a) (hb : goodEV env b) (h : evMul a b = .ok r) : goodP env r := by
  unfold evMul at h
  cases hx : evLin a with
  | error e => rw [hx, except_bind_err] at h; exact absurd h (by simp)
  | ok pa =>
    rw [hx, except_bind_ok] at h
    cases hy : evLin b with
    | error e => rw [hy, except_bind_err] at h; exact absurd h (by simp)
    | ok pb =>
      rw [hy, except_bind_ok] at h
      exact goodP_mul (goodP_of_evLin ha hx) (goodP_of_evLin hb hy) h

theorem goodC_cpxAdd {env : List (String × EnvVal)} {z1 z2 w : CVal}
    (h1 : goodC env z1) (h2 : goodC env z2) (h : Cpx.add z1 z2 = .ok w) : goodC env w := by
  unfold Cpx.add at h
  cases hx1 : evLin z1.1 with
  | error e => rw [hx1, except_bind_err] at h; exact absurd h (by simp)
  | ok x1 =>
    rw [hx1, except_bind_ok] at h
    cases hx2 : evLin z2.1 with
    | error e => rw [hx2, except_bind_err] at h; exact absurd h (by simp)
    | ok x2 =>
      rw [hx2, except_bind_ok] at h
      cases hy1 : evLin z1.2 with
      | error e => rw [hy1, except_bind_err] at h; exact absurd h (by simp)
      | ok y1 =>
        rw [hy1, except_bind_ok] at h
        cases hy2 : evLin z2.2 with
        | error e => rw [hy2, except_bind_err] at h; exact absurd h (by simp)
        | ok y2 =>
          rw [hy2, except_bind_ok] at h
          simp only [Except.ok.injEq] at h
          subst h
          exact ⟨goodP_add (goodP_of_evLin h1.1 hx1) (goodP_of_evLin h2.1 hx2),
                 goodP_add (goodP_of_evLin h1.2 hy1) (goodP_of_evLin h2.2 hy2)⟩

theorem goodC_cpxSub {env : List (String × EnvVal)} {z1 z2 w : CVal}
    (h1 : goodC env z1) (h2 : goodC env z2) (h : Cpx.sub z1 z2 = .ok w) : goodC env w := by
  unfold Cpx.sub at h
  cases hx1 : evLin z1.1 with
  | error e => rw [hx1, except_bind_err] at h; exact absurd h (by simp)
  | ok x1 =>
    rw [hx1, except_bind_ok] at h
    cases hx2 : evLin z2.1 with
    | error e => rw [hx2, except_bind_err] at h; exact absurd h (by simp)
    | ok x2 =>
      rw [hx2, except_bind_ok] at h
      cases hy1 : evLin z1.2 with
      | error e => rw [hy1, except_bind_err] at h; exact absurd h (by simp)
      | ok y1 =>
        rw [hy1, except_bind_ok] at h
        cases hy2 : evLin z2.2 with
        | error e => rw [hy2, except_bind_err] at h; exact absurd h (by simp)
        | ok y2 =>
          rw [hy2, except_bind_ok] at h
          simp only [Except.ok.injEq] at h
          subst h
          exact ⟨goodP_sub (goodP_of_evLin h1.1 hx1) (goodP_of_evLin h2.1 hx2),
                 goodP_sub (goodP_of_evLin h1.2 hy1) (goodP_of_evLin h2.2 hy2)⟩

theorem goodC_cpxNeg {env : List (String × EnvVal)} {z w : CVal}
    (h1 : goodC env z) (h : Cpx.neg z = .ok w) : goodC env w := by
  unfold Cpx.neg at h
  cases hx : evLin z.1 with
  | error e => rw [hx, except_bind_err] at h; exact absurd h (by simp)
  | ok x =>
    rw [hx, except_bind_ok] at h
    cases hy : evLin z.2 with
    | error e => rw [hy, except_bind_err] at h; exact absurd h (by simp)
    | ok y =>
      rw [hy, except_bind_ok] at h
      simp only [Except.ok.injEq] at h
      subst h
      exact ⟨goodP_neg (goodP_of_evLin h1.1 hx), goodP_neg (goodP_of_evLin h1.2 hy)⟩

theorem goodC_cpxMul {env : List (String × EnvVal)} {z1 z2 w : CVal}
    (h1 : goodC env z1) (h2 : goodC env z2) (h : Cpx.mul z1 z2 = .ok w) : goodC env w := by
  unfold Cpx.mul at h
  cases ha : evMul z1.1 z2.1 with
  | error e => rw [ha, except_bind_err] at h; exact absurd h (by simp)
  | ok a =>
    rw [ha, except_bind_ok] at h
    cases hb : evMul z1.2 z2.2 with
    | error e => rw [hb, except_bind_err] at h; exact absurd h (by simp)
    | ok b =>
      rw [hb, except_bind_ok] at h
      cases hc : evMul z1.1 z2.2 with
      | error e => rw [hc, except_bind_err] at h; exact absurd h (by simp)
      | ok cc =>
        rw [hc, except_bind_ok] at h
        cases hd : evMul z2.1 z1.2 with
        | error e => rw [hd, except_bind_err] at h; exact absurd h (by simp)
        | ok d =>
          rw [hd, except_bind_ok] at h
          simp only [Except.ok.injEq] at h
          subst h
          exact ⟨goodP_sub (goodP_evMul h1.1 h2.1 ha) (goodP_evMul h1.2 h2.2 hb),
                 goodP_add (goodP_evMul h1.1 h2.2 hc) (goodP_evMul h2.1 h1.2 hd)⟩

theorem goodC_cpxDiv {env : List (String × EnvVal)} {z1 z2 w : CVal}
    (h1 : goodC env z1) (h2 : goodC env z2) (h : Cpx.div z1 z2 = .ok w) : goodC env w := by
  unfold Cpx.div at h
  cases hx : evNumber z2.1 with
  | error e => rw [hx, except_bind_err] at h; exact absurd h (by simp)
  | ok xo =>
    rw [hx, except_bind_ok] at h
    cases hy : evNumber z2.2 with
    | error e => rw [hy, except_bind_err] at h; exact absurd h (by simp)
    | ok yo =>
      rw [hy, except_bind_ok] at h
      cases xo with
      | none => cases yo <;> simp at h
      | some a =>
        cases yo with
        | none => simp at h
        | some b =>
          simp only [] at h
          cases ht1 : evMul z1.1 z2.1 with
          | error e => rw [ht1, except_bind_err] at h; exact absurd h (by simp)
          | ok t1 =>
            rw [ht1, except_bind_ok] at h
            cases ht2 : evMul z1.2 z2.2 with
            | error e => rw [ht2, except_bind_err] at h; exact absurd h (by simp)
            | ok t2 =>
              rw [ht2, except_bind_ok] at h
              cases hxr : LinPoly.mul (t1.add t2) ⟨1 / (a * a + b * b), []⟩ with
              | error e => rw [hxr, except_bind_err] at h; exact absurd h (by simp)
              | ok xr =>
                rw [hxr, except_bind_ok] at h
                cases ht3 : evMul z2.1 z1.2 with
                | error e => rw [ht3, except_bind_err] at h; exact absurd h (by simp)
                | ok t3 =>
                  rw [ht3, except_bind_ok] at h
                  cases ht4 : evMul z1.1 z2.2 with
                  | error e => rw [ht4, except_bind_err] at h; exact absurd h (by simp)
                  | ok t4 =>
                    rw [ht4, except_bind_ok] at h
                    cases hyr : LinPoly.mul (t3.sub t4) ⟨1 / (a * a + b * b), []⟩ with
                    | error e => rw [hyr, except_bind_err] at h; exact absurd h (by simp)
                    | ok yr =>
                      rw [hyr, except_bind_ok] at h
                      simp only [Except.ok.injEq] at h
                      subst h
                      refine ⟨?_, ?_⟩
                      · exact goodP_mul
                          (goodP_add (goodP_evMul h1.1 h2.1 ht1) (goodP_evMul h1.2 h2.2 ht2))
                          (goodP_const env _) hxr
                      · exact goodP_mul
                          (goodP_sub (goodP_evMul h2.1 h1.2 ht3) (goodP_evMul h1.1 h2.2 ht4))
                          (goodP_const env _) hyr

theorem goodC_cpxPow {env : List (String × EnvVal)} {F : RealFns} {z1 z2 w : CVal}
    (h : Cpx.pow F z1 z2 = .ok w) : goodC env w := by
  unfold Cpx.pow at h
  cases hx : evNumber z2.1 with
  | error e => rw [hx, except_bind_err] at h; exact absurd h (by simp)
  | ok x2o =>
    rw [hx, except_bind_ok] at h
    cases hy : evNumber z2.2 with
    | error e => rw [hy, except_bind_err] at h; exact absurd h (by simp)
    | ok y2o =>
      rw [hy, except_bind_ok] at h
      cases x2o with
      | none => cases y2o <;> simp at h
      | some x2 =>
        cases y2o with
        | none => simp at h
        | some y2 =>
          simp only [] at h
          by_cases hz : is_zero y2
          · rw [if_pos hz] at h
            cases hx1 : evNumber z1.1 with
            | error e => rw [hx1, except_bind_err] at h; exact absurd h (by simp)
            | ok x1o =>
              rw [hx1, except_bind_ok] at h
              cases hy1 : evNumber z1.2 with
              | error e => rw [hy1, except_bind_err] at h; exact absurd h (by simp)
              | ok y1o =>
                rw [hy1, except_bind_ok] at h
                cases x1o with
                | none => cases y1o <;> simp at h
                | some x1 =>
                  cases y1o with
                  | none => simp at h
                  | some y1 =>
                    simp only [Except.ok.injEq] at h
                    subst h
                    exact ⟨goodP_const env _, goodP_const env _⟩
          · rw [if_neg hz] at h
            simp at h

theorem application_ne_ok (fn arg : CVal) (w : CVal) : application fn arg ≠ .ok w := by
  unfold application
  cases hx : evNumber arg.1 with
  | error e => rw [except_bind_err]; simp
  | ok xo =>
    rw [except_bind_ok]
    cases hy : evNumber arg.2 with
    | error e => rw [except_bind_err]; simp
    | ok yo => rw [except_bind_ok]; simp

theorem goodC_mediation {env : List (String × EnvVal)} {t l r w : CVal}
    (ht : goodC env t) (hl : goodC env l) (hr : goodC env r)
    (h : mediation t l r = .ok w) : goodC env w := by
  unfold mediation at h
  cases hd : Cpx.sub r l with
  | error e => rw [hd, except_bind_err] at h; exact absurd h (by simp)
  | ok d =>
    rw [hd, except_bind_ok] at h
    cases hm : Cpx.mul (t.1, .lin ⟨0, []⟩) d with
    | error e => rw [hm, except_bind_err] at h; exact absurd h (by simp)
    | ok m =>
      rw [hm, except_bind_ok] at h
      have hscale : goodC env (t.1, EnvVal.lin ⟨0, []⟩) := ⟨ht.1, goodP_const env 0⟩
      exact goodC_cpxAdd hl (goodC_cpxMul hscale (goodC_cpxSub hr hl hd) hm) h

/-! Well-formedness of parser-constructor values. -/

theorem goodEV_variable_part {st : EState} (hInv : InvE st) (v : String) :
    goodEV st.env (variable_part st v) := by
  unfold variable_part
  cases h : lookupA st.env v with
  | some val => exact hInv.2 (v, val) (lookupA_mem h)
  | none =>
    show goodP st.env ⟨0, [(v, 1)]⟩
    refine ⟨by simp [keysP, keysA], fun u hu => ?_⟩
    have hu' : u = v := by simpa [keysP, keysA] using hu
    subst hu'
    unfold isPolyKey
    rw [h]

theorem goodC_variableC {st : EState} (hInv : InvE st) (s : String) :
    goodC st.env (variableC st s) :=
  ⟨goodEV_variable_part hInv _, goodEV_variable_part hInv _⟩

theorem goodC_numberC (env : List (String × EnvVal)) (x : ℚ) : goodC env (numberC x) :=
  ⟨goodP_const env x, goodP_const env 0⟩

theorem InvE_of_env_eq {st1 st : EState} (he : st1.env = st.env) (h : InvE st) :
    InvE st1 := by
  unfold InvE keysE at h ⊢
  rw [he]
  exact h

/-! The expression evaluator only reads the environment; the values it
produces are substitution-closed against it. -/

theorem evalE_good {F : RealFns} :
    ∀ (e : Expr) {st : EState} {z : CVal} {st' : EState},
      InvE st → evalE F st e = .ok (z, st') →
      goodC st.env z ∧ st'.env = st.env ∧ st'.translation = st.translation := by
  intro e
  induction e with
  | num x =>
    intro st z st' hInv h
    simp only [evalE, Except.ok.injEq, Prod.mk.injEq] at h
    obtain ⟨rfl, rfl⟩ := h
    exact ⟨goodC_numberC _ x, rfl, rfl⟩
  | var s =>
    intro st z st' hInv h
    simp only [evalE, Except.ok.injEq, Prod.mk.injEq] at h
    obtain ⟨rfl, rfl⟩ := h
    exact ⟨goodC_variableC hInv s, rfl, rfl⟩
  | avar =>
    intro st z st' hInv h
    simp only [evalE, Except.ok.injEq, Prod.mk.injEq] at h
    obtain ⟨rfl, rfl⟩ := h
    exact ⟨goodC_variableC hInv _, rfl, rfl⟩
  | app f a iha =>
    intro st z st' hInv h
    simp only [evalE] at h
    cases ha : evalE F st a with
    | error err => rw [ha, except_bind_err] at h; exact absurd h (by simp)
    | ok avs =>
      obtain ⟨av, st1⟩ := avs
      rw [ha, except_bind_ok] at h
      cases happ : application (variableC st f) av with
      | error err => rw [happ, except_bind_err] at h; exact absurd h (by simp)
      | ok rv => exact absurd happ (application_ne_ok _ _ _)
  | med t l r iht ihl ihr =>
    intro st z st' hInv h
    simp only [evalE] at h
    cases ht : evalE F st t with
    | error err => rw [ht, except_bind_err] at h; exact absurd h (by simp)
    | ok tvs =>
      obtain ⟨tv, st1⟩ := tvs
      rw [ht, except_bind_ok] at h
      cases hl : evalE F st1 l with
      | error err => rw [hl, except_bind_err] at h; exact absurd h (by simp)
      | ok lvs =>
        obtain ⟨lv, st2⟩ := lvs
        rw [hl, except_bind_ok] at h
        cases hr : evalE F st2 r with
        | error err => rw [hr, except_bind_err] at h; exact absurd h (by simp)
        | ok rvs =>
          obtain ⟨rv, st3⟩ := rvs
          rw [hr, except_bind_ok] at h
          cases hv : mediation tv lv rv with
          | error err => rw [hv, except_bind_err] at h; exact absurd h (by simp)
          | ok v =>
            rw [hv, except_bind_ok] at h
            simp only [Except.ok.injEq, Prod.mk.injEq] at h
            obtain ⟨rfl, rfl⟩ := h
            obtain ⟨hgt, henv1, htr1⟩ := iht hInv ht
            have hInv1 : InvE st1 := InvE_of_env_eq henv1 hInv
            obtain ⟨hgl, henv2, htr2⟩ := ihl hInv1 hl
            have hInv2 : InvE st2 := InvE_of_env_eq henv2 hInv1
            obtain ⟨hgr, henv3, htr3⟩ := ihr hInv2 hr
            rw [henv1] at hgl
            rw [henv2, henv1] at hgr
            refine ⟨?_, by rw [henv3, henv2, henv1], by rw [htr3, htr2, htr1]⟩
            exact goodC_mediation hgt hgl hgr hv
  | add l r ihl ihr =>
    intro st z st' hInv h
    simp only [evalE] at h
    cases hl : evalE F st l with
    | error err => rw [hl, except_bind_err] at h; exact absurd h (by simp)
    | ok lvs =>
      obtain ⟨lv, st1⟩ := lvs
      rw [hl, except_bind_ok] at h
      cases hr : evalE F st1 r with
      | error err => rw [hr, except_bind_err] at h; exact absurd h (by simp)
      | ok rvs =>
        obtain ⟨rv, st2⟩ := rvs
        rw [hr, except_bind_ok] at h
        cases hv : Cpx.add lv rv with
        | error err => rw [hv, except_bind_err] at h; exact absurd h (by simp)
        | ok v =>
          rw [hv, except_bind_ok] at h
          simp only [Except.ok.injEq, Prod.mk.injEq] at h
          obtain ⟨rfl, rfl⟩ := h
          obtain ⟨hgl, henv1, htr1⟩ := ihl hInv hl
          have hInv1 : InvE st1 := InvE_of_env_eq henv1 hInv
          obtain ⟨hgr, henv2, htr2⟩ := ihr hInv1 hr
          rw [henv1] at hgr
          exact ⟨goodC_cpxAdd hgl hgr hv, by rw [henv2, henv1], by rw [htr2, htr1]⟩
  | sub l r ihl ihr =>
    intro st z st' hInv h
    simp only [evalE] at h
    cases hl : evalE F st l with
    | error err => rw [hl, except_bind_err] at h; exact absurd h (by simp)
    | ok lvs =>
      obtain ⟨lv, st1⟩ := lvs
      rw [hl, except_bind_ok] at h
      cases hr : evalE F st1 r with
      | error err => rw [hr, except_bind_err] at h; exact absurd h (by simp)
      | ok rvs =>
        obtain ⟨rv, st2⟩ := rvs
        rw [hr, except_bind_ok] at h
        cases hv : Cpx.sub lv rv with
        | error err => rw [hv, except_bind_err] at h; exact absurd h (by simp)
        | ok v =>
          rw [hv, except_bind_ok] at h
          simp only [Except.ok.injEq, Prod.mk.injEq] at h
          obtain ⟨rfl, rfl⟩ := h
          obtain ⟨hgl, henv1, htr1⟩ := ihl hInv hl
          have hInv1 : InvE st1 := InvE_of_env_eq henv1 hInv
          obtain ⟨hgr, henv2, htr2⟩ := ihr hInv1 hr
          rw [henv1] at hgr
          exact ⟨goodC_cpxSub hgl hgr hv, by rw [henv2, henv1], by rw [htr2, htr1]⟩
  | mul l r ihl ihr =>
    intro st z st' hInv h
    simp only [evalE] at h
    cases hl : evalE F st l with
    | error err => rw [hl, except_bind_err] at h; exact absurd h (by simp)
    | ok lvs =>
      obtain ⟨lv, st1⟩ := lvs
      rw [hl, except_bind_ok] at h
      cases hr : evalE F st1 r with
      | error err => rw [hr, except_bind_err] at h; exact absurd h (by simp)
      | ok rvs =>
        obtain ⟨rv, st2⟩ := rvs
        rw [hr, except_bind_ok] at h
        cases hv : Cpx.mul lv rv with
        | error err => rw [hv, except_bind_err] at h; exact absurd h (by simp)
        | ok v =>
          rw [hv, except_bind_ok] at h
          simp only [Except.ok.injEq, Prod.mk.injEq] at h
          obtain ⟨rfl, rfl⟩ := h
          obtain ⟨hgl, henv1, htr1⟩ := ihl hInv hl
          have hInv1 : InvE st1 := InvE_of_env_eq henv1 hInv
          obtain ⟨hgr, henv2, htr2⟩ := ihr hInv1 hr
          rw [henv1] at hgr
          exact ⟨goodC_cpxMul hgl hgr hv, by rw [henv2, henv1], by rw [htr2, htr1]⟩
  | div l r ihl ihr =>
    intro st z st' hInv h
    simp only [evalE] at h
    cases hl : evalE F st l with
    | error err => rw [hl, except_bind_err] at h; exact absurd h (by simp)
    | ok lvs =>
      obtain ⟨lv, st1⟩ := lvs
      rw [hl, except_bind_ok] at h
      cases hr : evalE F st1 r with
      | error err => rw [hr, except_bind_err] at h; exact absurd h (by simp)
      | ok rvs =>
        obtain ⟨rv, st2⟩ := rvs
        rw [hr, except_bind_ok] at h
        cases hv : Cpx.div lv rv with
        | error err => rw [hv, except_bind_err] at h; exact absurd h (by simp)
        | ok v =>
          rw [hv, except_bind_ok] at h
          simp only [Except.ok.injEq, Prod.mk.injEq] at h
          obtain ⟨rfl, rfl⟩ := h
          obtain ⟨hgl, henv1, htr1⟩ := ihl hInv hl
          have hInv1 : InvE st1 := InvE_of_env_eq henv1 hInv
          obtain ⟨hgr, henv2, htr2⟩ := ihr hInv1 hr
          rw [henv1] at hgr
          exact ⟨goodC_cpxDiv hgl hgr hv, by rw [henv2, henv1], by rw [htr2, htr1]⟩
  | neg a iha =>
    intro st z st' hInv h
    simp only [evalE] at h
    cases ha : evalE F st a with
    | error err => rw [ha, except_bind_err] at h; exact absurd h (by simp)
    | ok avs =>
      obtain ⟨av, st1⟩ := avs
      rw [ha, except_bind_ok] at h
      cases hv : Cpx.neg av with
      | error err => rw [hv, except_bind_err] at h; exact absurd h (by simp)
      | ok v =>
        rw [hv, except_bind_ok] at h
        simp only [Except.ok.injEq, Prod.mk.injEq] at h
        obtain ⟨rfl, rfl⟩ := h
        obtain ⟨hga, henv1, htr1⟩ := iha hInv ha
        exact ⟨goodC_cpxNeg hga hv, henv1, htr1⟩
  | pow l r ihl ihr =>
    intro st z st' hInv h
    simp only [evalE] at h
    cases hl : evalE F st l with
    | error err => rw [hl, except_bind_err] at h; exact absurd h (by simp)
    | ok lvs =>
      obtain ⟨lv, st1⟩ := lvs
      rw [hl, except_bind_ok] at h
      cases hr : evalE F st1 r with
      | error err => rw [hr, except_bind_err] at h; exact absurd h (by simp)
      | ok rvs =>
        obtain ⟨rv, st2⟩ := rvs
        rw [hr, except_bind_ok] at h
        cases hv : Cpx.pow F lv rv with
        | error err => rw [hv, except_bind_err] at h; exact absurd h (by simp)
        | ok v =>
          rw [hv, except_bind_ok] at h
          simp only [Except.ok.injEq, Prod.mk.injEq] at h
          obtain ⟨rfl, rfl⟩ := h
          obtain ⟨hgl, henv1, htr1⟩ := ihl hInv hl
          have hInv1 : InvE st1 := InvE_of_env_eq henv1 hInv
          obtain ⟨hgr, henv2, htr2⟩ := ihr hInv1 hr
          exact ⟨goodC_cpxPow hv, by rw [henv2, henv1], by rw [htr2, htr1]⟩

/-! Reduction against the environment preserves well-formedness. -/

theorem reduceAux_good {st : EState} (hInv : InvE st) :
    ∀ (ls : List (String × ℚ)) (ans r : LinPoly), goodP st.env ans →
      reduceAux st ans ls = .ok r → goodP st.env r
  | [], ans, r, hans, h => by
    simp only [reduceAux, Except.ok.injEq] at h
    exact h ▸ hans
  | e :: t, ans, r, hans, h => by
    rw [reduceAux] at h
    cases hm : evMul (variable_part st e.1) (.lin ⟨e.2, []⟩) with
    | error err => rw [hm, except_bind_err] at h; exact absurd h (by simp)
    | ok m =>
      rw [hm, except_bind_ok] at h
      refine reduceAux_good hInv t _ r ?_ h
      refine goodP_add hans ?_
      exact goodP_evMul (goodEV_variable_part hInv e.1)
        (show goodEV st.env (EnvVal.lin ⟨e.2, []⟩) from goodP_const st.env e.2) hm

theorem reduceL_good {st : EState} (hInv : InvE st) {p r : LinPoly}
    (h : reduceL st p = .ok r) : goodP st.env r :=
  reduceAux_good hInv p.ls _ r (goodP_const _ _) h

theorem reduceEV_good {st : EState} (hInv : InvE st) {x : EnvVal} {r : LinPoly}
    (h : reduceEV st x = .ok r) : goodP st.env r := by
  cases x with
  | lin p => exact reduceL_good hInv h
  | fn f => simp [reduceEV] at h

/-! One equation preserves the invariant. -/

theorem equation_part_preserves {st st1 : EState} {l r : EnvVal}
    (hInv : InvE st) (hl : goodEV st.env l) (hr : goodEV st.env r)
    (h : equation_part st l r = .ok st1) :
    InvE st1 ∧ st1.whatever = st.whatever := by
  unfold equation_part at h
  cases hpl : evLin l with
  | error e => rw [hpl, except_bind_err] at h; exact absurd h (by simp)
  | ok pl =>
    rw [hpl, except_bind_ok] at h
    cases hpr : evLin r with
    | error e => rw [hpr, except_bind_err] at h; exact absurd h (by simp)
    | ok pr =>
      rw [hpr, except_bind_ok] at h
      have hg := goodP_sub (goodP_of_evLin hl hpl) (goodP_of_evLin hr hpr)
      exact solve_preserves hInv hg.1 hg.2 h

theorem equationC_preserves {st st2 : EState} {l r z : CVal}
    (hInv : InvE st) (hl : goodC st.env l) (hr : goodC st.env r)
    (h : equationC st l r = .ok (st2, z)) :
    InvE st2 ∧ goodC st2.env z := by
  unfold equationC at h
  cases h1 : equation_part st l.1 r.1 with
  | error e => rw [h1, except_bind_err] at h; exact absurd h (by simp)
  | ok st1 =>
    rw [h1, except_bind_ok] at h
    obtain ⟨hInv1, _⟩ := equation_part_preserves hInv hl.1 hr.1 h1
    cases hly : reduceEV st1 l.2 with
    | error e => rw [hly, except_bind_err] at h; exact absurd h (by simp)
    | ok ly =>
      rw [hly, except_bind_ok] at h
      cases hry : reduceEV st1 r.2 with
      | error e => rw [hry, except_bind_err] at h; exact absurd h (by simp)
      | ok ry =>
        rw [hry, except_bind_ok] at h
        cases h2 : equation_part st1 (.lin ly) (.lin ry) with
        | error e => rw [h2, except_bind_err] at h; exact absurd h (by simp)
        | ok st2a =>
          rw [h2, except_bind_ok] at h
          have hgly : goodEV st1.env (EnvVal.lin ly) := reduceEV_good hInv1 hly
          have hgry : goodEV st1.env (EnvVal.lin ry) := reduceEV_good hInv1 hry
          obtain ⟨hInv2, _⟩ := equation_part_preserves hInv1 hgly hgry h2
          cases hrx : reduceEV st2a r.1 with
          | error e => rw [hrx, except_bind_err] at h; exact absurd h (by simp)
          | ok rx =>
            rw [hrx, except_bind_ok] at h
            cases hry2 : reduceEV st2a r.2 with
            | error e => rw [hry2, except_bind_err] at h; exact absurd h (by simp)
            | ok ry2 =>
              rw [hry2, except_bind_ok] at h
              simp only [Except.ok.injEq, Prod.mk.injEq] at h
              obtain ⟨rfl, rfl⟩ := h
              exact ⟨hInv2, reduceEV_good hInv2 hrx, reduceEV_good hInv2 hry2⟩

/-! Whole programs preserve the invariant. -/

theorem runChain_preserves {F : RealFns} :
    ∀ (es : List Expr) {st : EState} {left : CVal} {st' : EState},
      InvE st → goodC st.env left → runChain F st left es = .ok st' → InvE st'
  | [], st, left, st', hInv, _, h => by
    simp only [runChain, Except.ok.injEq] at h
    exact h ▸ hInv
  | e :: rest, st, left, st', hInv, hleft, h => by
    simp only [runChain] at h
    cases he : evalE F st e with
    | error err => rw [he, except_bind_err] at h; exact absurd h (by simp)
    | ok vs =>
      obtain ⟨v, st1⟩ := vs
      rw [he, except_bind_ok] at h
      obtain ⟨hgv, henv, htr⟩ := evalE_good e hInv he
      have hInv1 : InvE st1 := InvE_of_env_eq henv hInv
      cases heq : equationC st1 left v with
      | error err => rw [heq, except_bind_err] at h; exact absurd h (by simp)
      | ok sr =>
        obtain ⟨st2, rv⟩ := sr
        rw [heq, except_bind_ok] at h
        have hleft1 : goodC st1.env left := by rw [henv]; exact hleft
        have hgv1 : goodC st1.env v := by rw [henv]; exact hgv
        obtain ⟨hInv2, hgr⟩ := equationC_preserves hInv1 hleft1 hgv1 heq
        exact runChain_preserves rest hInv2 hgr h

theorem runCmd_preserves {F : RealFns} {cmd : List Expr} {st st' : EState}
    (hInv : InvE st) (h : runCmd F st cmd = .ok st') : InvE st' := by
  cases cmd with
  | nil =>
    simp only [runCmd, Except.ok.injEq] at h
    exact h ▸ hInv
  | cons e rest =>
    simp only [runCmd] at h
    cases he : evalE F st e with
    | error err => rw [he, except_bind_err] at h; exact absurd h (by simp)
    | ok vs =>
      obtain ⟨v, st1⟩ := vs
      rw [he, except_bind_ok] at h
      obtain ⟨hgv, henv, htr⟩ := evalE_good e hInv he
      have hInv1 : InvE st1 := InvE_of_env_eq henv hInv
      have hgv1 : goodC st1.env v := by rw [henv]; exact hgv
      exact runChain_preserves rest hInv1 hgv1 h

theorem runCmds_preserves {F : RealFns} :
    ∀ (cmds : List (List Expr)) {st st' : EState},
      InvE st → runCmds F st cmds = .ok st' → InvE st'
  | [], st, st', hInv, h => by
    simp only [runCmds, Except.ok.injEq] at h
    exact h ▸ hInv
  | cmd :: rest, st, st', hInv, h => by
    rw [runCmds] at h
    cases hc : runCmd F st cmd with
    | error err => rw [hc, except_bind_err] at h; exact absurd h (by simp)
    | ok st1 =>
      rw [hc, except_bind_ok] at h
      exact runCmds_preserves rest (runCmd_preserves hInv hc) h

theorem InvE_init : InvE initEState := by
  constructor
  · show (keysE initEState.env).Nodup
    decide
  · intro we hwe
    fin_cases hwe
    case _ => exact goodP_const _ _
    case _ => exact goodP_const _ _
    case _ => exact goodP_const _ _
    case _ => exact goodP_const _ _
    all_goals exact goodEV_fn _ _

theorem isPolyKey_eq_true {env : List (String × EnvVal)} {v : String}
    (h : isPolyKey env v = true) : ∃ R, lookupA env v = some (.lin R) := by
  unfold isPolyKey at h
  cases hl : lookupA env v with
  | none => rw [hl] at h; simp at h
  | some x =>
    cases x with
    | lin R => exact ⟨R, rfl⟩
    | fn f => rw [hl] at h; simp at h

/-- When the simplified polynomial is not constant, the pivot scan
succeeds and `solve` cannot fault or error. -/
theorem solve_ok_of_nonconst (st : EState) (p : LinPoly)
    (h : (p.zap).number = none) : ∃ st', solve st p = .ok st' := by
  have hne : (p.zap).ls ≠ [] := (number_eq_none_iff _).mp h
  obtain ⟨v, c, hpiv, hmem, htol⟩ :=
    pivotScan_of_nonempty hne (fun e he => mem_zap_tol he)
  refine ⟨solveStep st p.zap v c, ?_⟩
  unfold solve
  rw [h, hpiv]

/-- C1: after any successful run, every dependent entry `env[w] = R`
mentions no variable that is itself bound to a polynomial; the
environment keys are distinct, so every dependent variable — in
particular each elected pivot, which always becomes and stays a
polynomial-bound key — occurs exactly once as a key and on no stored
right-hand side. -/
theorem c1_substitution_closure (F : RealFns) (prog : List (List Expr)) (st : EState)
    (h : runProg F prog = .ok st) :
    (∀ w R, (w, EnvVal.lin R) ∈ st.env → ∀ v ∈ keysP R, isPolyKey st.env v = false)
    ∧ (keysA st.env).Nodup
    ∧ (∀ v, isPolyKey st.env v = true →
        (keysA st.env).count v = 1
        ∧ ∀ w R, (w, EnvVal.lin R) ∈ st.env → v ∉ keysP R) := by
  have hInv : InvE st := runCmds_preserves prog InvE_init h
  refine ⟨?_, hInv.1, ?_⟩
  · intro w R hmem v hv
    exact (hInv.2 (w, .lin R) hmem).2 v hv
  · intro v hpk
    obtain ⟨R, hR⟩ := isPolyKey_eq_true hpk
    have hvmem : v ∈ keysA st.env := lookupA_mem_keys hR
    refine ⟨List.count_eq_one_of_mem hInv.1 hvmem, ?_⟩
    intro w R' hmem hv
    have hclosed := (hInv.2 (w, .lin R') hmem).2 v hv
    rw [hpk] at hclosed
    exact absurd hclosed (by simp)

/-- Witness for C1 at the concrete program `a = 2 ; b = a + c`. -/
theorem c1_substitution_closure_witness :
    (∀ w R, (w, EnvVal.lin R) ∈ c1wSt.env → ∀ v ∈ keysP R, isPolyKey c1wSt.env v = false)
    ∧ (keysA c1wSt.env).Nodup
    ∧ (∀ v, isPolyKey c1wSt.env v = true →
        (keysA c1wSt.env).count v = 1
        ∧ ∀ w R, (w, EnvVal.lin R) ∈ c1wSt.env → v ∉ keysP R) :=
  c1_substitution_closure noFns c1wProg c1wSt (by with_unfolding_all rfl)

/-- C2: an equation whose polynomial simplifies to a constant `c` fails
with the redundant-equation error when `c` is zero under the tolerance
and with the inconsistent-equation error otherwise; no such error is
raised when a variable survives simplification; and a failing command
aborts the run — the remaining commands are not processed and the
process exit status is 1 (the C driver prints the message through
`yyerror` on stderr before exiting). -/
theorem c2_constant_equation_errors :
    (∀ (st : EState) (p : LinPoly) (c : ℚ),
       (p.zap).number = some c → is_zero c = true →
       solve st p = .error .redundantEquation)
    ∧ (∀ (st : EState) (p : LinPoly) (c : ℚ),
       (p.zap).number = some c → is_zero c = false →
       solve st p = .error .inconsistentEquation)
    ∧ (∀ (st : EState) (p : LinPoly),
       (p.zap).number = none → (solve st p).isOk = true)
    ∧ (∀ (F : RealFns) (st : EState) (cmd : List Expr) (rest : List (List Expr)) (e : Err),
       runCmd F st cmd = .error e →
       runCmds F st (cmd :: rest) = .error e
       ∧ exitCode (runCmds F st (cmd :: rest)) = 1) := by
  refine ⟨?_, ?_, ?_, ?_⟩
  · intro st p c h hz
    unfold solve
    rw [h]
    simp [hz]
  · intro st p c h hz
    unfold solve
    rw [h]
    simp [hz]
  · intro st p h
    obtain ⟨st', hs⟩ := solve_ok_of_nonconst st p h
    rw [hs]
    rfl
  · intro F st cmd rest e h
    have hrun : runCmds F st (cmd :: rest) = .error e := by
      rw [runCmds, h, except_bind_err]
    exact ⟨hrun, by rw [hrun]; rfl⟩

/-- Witness for C2: `0 = 3` is inconsistent, `0 = τ/2·x − τ/2·x`-style
near-zero constants are redundant, and a surviving variable avoids
both errors. -/
theorem c2_constant_equation_errors_witness :
    solve initEState ⟨3, []⟩ = .error .inconsistentEquation
    ∧ solve initEState ⟨0, [("x#x", tol / 2)]⟩ = .error .redundantEquation
    ∧ (solve initEState ⟨1, [("x#x", 1)]⟩).isOk = true :=
  ⟨c2_constant_equation_errors.2.1 initEState ⟨3, []⟩ 3
     (by with_unfolding_all rfl) (by with_unfolding_all rfl),
   c2_constant_equation_errors.1 initEState ⟨0, [("x#x", tol / 2)]⟩ 0
     (by with_unfolding_all rfl) (by with_unfolding_all rfl),
   c2_constant_equation_errors.2.2.1 initEState ⟨1, [("x#x", 1)]⟩
     (by with_unfolding_all rfl)⟩

/-- C9: after simplification every surviving coefficient has magnitude
at least τ, so when the simplified polynomial is not a constant the
strict-maximum scan (started from 0) elects a pivot that is present in
the term map with a nonzero coefficient — the subsequent term deletion
hits an existing entry, the division is by a nonzero number, and
`solve` cannot fault. -/
theorem c9_pivot_always_found (p : LinPoly) (h : (p.zap).number = none) :
    (∀ e ∈ (p.zap).ls, tol ≤ |e.2|)
    ∧ (∃ v c, (pivotScan (p.zap).ls).2 = some (v, c)
        ∧ (v, c) ∈ (p.zap).ls ∧ tol ≤ |c| ∧ c ≠ 0)
    ∧ (∀ st : EState, (solve st p).isOk = true) := by
  refine ⟨fun e he => mem_zap_tol he, ?_, ?_⟩
  · obtain ⟨v, c, hpiv, hmem, htol⟩ :=
      pivotScan_of_nonempty ((number_eq_none_iff _).mp h) (fun e he => mem_zap_tol he)
    have hc : c ≠ 0 := by
      intro hc0
      rw [hc0, abs_zero] at htol
      exact absurd htol (not_le.mpr tol_pos)
    exact ⟨v, c, hpiv, hmem, htol, hc⟩
  · intro st
    obtain ⟨st', hs⟩ := solve_ok_of_nonconst st p h
    rw [hs]
    rfl

/-- Witness for C9 at a polynomial with one live and one sub-tolerance
coefficient. -/
theorem c9_pivot_always_found_witness :
    (∀ e ∈ (c9wP.zap).ls, tol ≤ |e.2|)
    ∧ (∃ v c, (pivotScan (c9wP.zap).ls).2 = some (v, c)
        ∧ (v, c) ∈ (c9wP.zap).ls ∧ tol ≤ |c| ∧ c ≠ 0)
    ∧ (∀ st : EState, (solve st c9wP).isOk = true) :=
  c9_pivot_always_found c9wP (by with_unfolding_all rfl)

set_option maxRecDepth 8000 in
/-- C10: an equation between complex values is processed as two
sequential real solves — the real parts first — so a real-part
difference that simplifies to a (near-)zero constant aborts the run
with the redundant-equation error before the imaginary parts are
examined.  Concretely, after `b = 1` the input `a = a + b*i` fails as
redundant, although its imaginary-part constraint alone (`a#y = a#y +
1`) would be inconsistent. -/
theorem c10_real_part_solved_first :
    (∀ (st : EState) (l r : CVal) (pl pr : LinPoly),
       evLin l.1 = .ok pl → evLin r.1 = .ok pr →
       ((pl.sub pr).zap).number = some 0 →
       equationC st l r = .error .redundantEquation)
    ∧ runProg noFns c10Prog = .error .redundantEquation
    ∧ solve c10StB (LinPoly.sub ⟨0, [("a#y", 1)]⟩ ⟨1, [("a#y", 1)]⟩)
        = .error .inconsistentEquation := by
  refine ⟨?_, by with_unfolding_all rfl, by with_unfolding_all rfl⟩
  intro st l r pl pr hl hr hz
  have h0 : is_zero (0 : ℚ) = true := by norm_num [is_zero, tol]
  have hep : equation_part st l.1 r.1 = .error .redundantEquation := by
    unfold equation_part
    rw [hl, except_bind_ok, hr, except_bind_ok]
    unfold solve
    rw [hz]
    simp [h0]
  unfold equationC
  rw [hep, except_bind_err]

/-- Witness for C10: `q = q` at the initial state goes down the
redundant-equation branch of the first (real-part) solve. -/
theorem c10_real_part_solved_first_witness :
    equationC initEState (variableC initEState "q") (variableC initEState "q")
      = .error .redundantEquation :=
  c10_real_part_solved_first.1 initEState
    (variableC initEState "q") (variableC initEState "q")
    ⟨0, [("q#x", 1)]⟩ ⟨0, [("q#x", 1)]⟩
    (by with_unfolding_all rfl) (by with_unfolding_all rfl)
    (by with_unfolding_all rfl)

/-- C3 (code bug): the built-in `abs` is seeded in the environment, but
`variable` appends `#x`/`#y` before the lookup, so no function value
ever reaches `application`; every application therefore takes the
not-a-function branch — which itself faults calling the undefined
method `tostring` — and `x = abs 4` aborts instead of binding `x` to
the constant 4. -/
theorem c3_builtin_application_always_fails :
    lookupA initEState.env "abs" = some (.fn .abs)
    ∧ (∀ fn arg : CVal, (application fn arg).isOk = false)
    ∧ variableC initEState "abs"
        = (.lin ⟨0, [("abs#x", 1)]⟩, .lin ⟨0, [("abs#y", 1)]⟩)
    ∧ runProg noFns c3Prog = .error .notAFunctionCrash := by
  refine ⟨by with_unfolding_all rfl, ?_, by with_unfolding_all rfl,
    by with_unfolding_all rfl⟩
  intro fn arg
  cases happ : application fn arg with
  | error e => rfl
  | ok w => exact absurd happ (application_ne_ok fn arg w)

/-- C4 (code bug): at base 1 and exponent 3 — where `log(1,0) = (0,0)`
and `exp(0,0) = (1,0)` hold exactly, even in IEEE arithmetic — the
source line `return complex(linear(x1), linear(x2))` makes `1^3`
evaluate to `1 + 3i`: the imaginary part of the result is the
exponent's real part 3, while the imaginary part of
`exp(log(base)·exponent)` is 0. -/
theorem c4_pow_imaginary_part_is_exponent (F : RealFns)
    (hl : F.lg (1, 0) = (0, 0)) (he : F.ex (0, 0) = (1, 0)) :
    Cpx.pow F (numberC 1) (numberC 3) = .ok (.lin ⟨1, []⟩, .lin ⟨3, []⟩)
    ∧ (F.ex ((F.lg (1, 0)).1 * 3, 3 * (F.lg (1, 0)).2)).2 = 0
    ∧ (3 : ℚ) ≠ 0 := by
  have h0 : is_zero (0 : ℚ) = true := by norm_num [is_zero, tol]
  refine ⟨?_, ?_, by norm_num⟩
  · unfold Cpx.pow numberC
    simp only [evNumber, LinPoly.number, except_bind_ok, h0, eq_self_iff_true, if_true]
    rw [hl]
    have hx : ((0 : ℚ), (0 : ℚ)).1 * 3 = 0 := by norm_num
    have hy : (3 : ℚ) * ((0 : ℚ), (0 : ℚ)).2 = 0 := by norm_num
    rw [hx, hy, he]
  · rw [hl]
    have hx : ((0 : ℚ), (0 : ℚ)).1 * 3 = 0 := by norm_num
    have hy : (3 : ℚ) * ((0 : ℚ), (0 : ℚ)).2 = 0 := by norm_num
    rw [hx, hy, he]

/-- `Linear.__mul` with a constant right factor scales the left factor:
the result's constant and coefficients are those of `p` times `k`. -/
theorem mul_const_right {q : LinPoly} {k : ℚ} (p : LinPoly) (hq : q.number = some k) :
    ∃ r, LinPoly.mul p q = .ok r
      ∧ r.c = p.c * k
      ∧ (∀ v, coeffOf r v = coeffOf p v * k)
      ∧ ((keysP p).Nodup → (keysP r).Nodup)
      ∧ (∀ v, v ∈ keysP r → v ∈ keysP p) := by
  obtain ⟨hls, hc⟩ := (number_eq_some_iff q k).mp hq
  unfold LinPoly.mul
  cases hn : p.number with
  | some c =>
    obtain ⟨hpls, hpc⟩ := (number_eq_some_iff p c).mp hn
    refine ⟨LinPoly.scale c q, rfl, ?_, ?_, ?_, ?_⟩
    · simp [LinPoly.scale, hc, hpc]
    · intro v
      rw [coeffOf_scale]
      simp [coeffOf, hls, hpls, lookupA]
    · intro _
      rw [keysP_scale]
      simp [keysP, keysA, hls]
    · intro v hv
      rw [keysP_scale] at hv
      simp [keysP, keysA, hls] at hv
  | none =>
    rw [hq]
    refine ⟨LinPoly.scale k p, rfl, ?_, ?_, ?_, ?_⟩
    · simp [LinPoly.scale]
      ring
    · intro v
      rw [coeffOf_scale]
      ring
    · intro h
      rw [keysP_scale]
      exact h
    · intro v hv
      rw [keysP_scale] at hv
      exact hv

/-- `Linear.__mul` with a constant left factor. -/
theorem mul_const_left {p : LinPoly} {k : ℚ} (q : LinPoly) (hp : p.number = some k) :
    LinPoly.mul p q = .ok (LinPoly.scale k q) := by
  unfold LinPoly.mul
  rw [hp]

/-- `evMul` on two stored polynomials is `Linear.__mul`. -/
theorem evMul_lin (p q : LinPoly) : evMul (.lin p) (.lin q) = LinPoly.mul p q := rfl

/-- C7: complex multiplication fails with the nonlinear-product error
unless at least one operand is a constant polynomial (so a product of
two variable-carrying values is always an error); when one operand is
the constant `k = a + bi`, the result's constant term is `k` times the
other operand's constant term and every coefficient of the other
operand is scaled by `k` (componentwise: real part `x·a - y·b`,
imaginary part `x·b + a·y`). -/
theorem c7_mul_requires_constant (x1 y1 x2 y2 : LinPoly) (a b : ℚ)
    (hNx1 : (keysP x1).Nodup) (hNy1 : (keysP y1).Nodup)
    (hNx2 : (keysP x2).Nodup) (hNy2 : (keysP y2).Nodup) :
    ((x1.number = none ∨ y1.number = none) → (x2.number = none ∨ y2.number = none) →
      Cpx.mul (.lin x1, .lin y1) (.lin x2, .lin y2) = .error .mulNonNumber)
    ∧ (x2.number = some a → y2.number = some b →
      ∃ wx wy, Cpx.mul (.lin x1, .lin y1) (.lin x2, .lin y2) = .ok (.lin wx, .lin wy)
        ∧ wx.c = x1.c * a - y1.c * b
        ∧ wy.c = x1.c * b + a * y1.c
        ∧ (∀ v, coeffOf wx v = coeffOf x1 v * a - coeffOf y1 v * b)
        ∧ (∀ v, coeffOf wy v = coeffOf x1 v * b + a * coeffOf y1 v))
    ∧ (x1.number = some a → y1.number = some b →
      ∃ wx wy, Cpx.mul (.lin x1, .lin y1) (.lin x2, .lin y2) = .ok (.lin wx, .lin wy)
        ∧ wx.c = a * x2.c - b * y2.c
        ∧ wy.c = a * y2.c + b * x2.c
        ∧ (∀ v, coeffOf wx v = a * coeffOf x2 v - b * coeffOf y2 v)
        ∧ (∀ v, coeffOf wy v = a * coeffOf y2 v + b * coeffOf x2 v)) := by
  refine ⟨?_, ?_, ?_⟩
  · -- both operands nonconstant: some sub-product has two nonconstant
    -- factors and `Linear.__mul` raises the error
    intro h1 h2
    rcases h1 with h1 | h1 <;> rcases h2 with h2 | h2
    · simp [Cpx.mul, evMul, evLin, LinPoly.mul, h1, h2, except_bind_ok, except_bind_err]
    · cases hx2 : x2.number with
      | none =>
        simp [Cpx.mul, evMul, evLin, LinPoly.mul, h1, hx2, except_bind_ok, except_bind_err]
      | some c2 =>
        cases hy1 : y1.number with
        | none =>
          simp [Cpx.mul, evMul, evLin, LinPoly.mul, h1, h2, hx2, hy1,
            except_bind_ok, except_bind_err]
        | some c1 =>
          simp [Cpx.mul, evMul, evLin, LinPoly.mul, h1, h2, hx2, hy1,
            except_bind_ok, except_bind_err]
    · cases hx1 : x1.number with
      | none =>
        simp [Cpx.mul, evMul, evLin, LinPoly.mul, hx1, h2, except_bind_ok, except_bind_err]
      | some c1 =>
        cases hy2 : y2.number with
        | none =>
          simp [Cpx.mul, evMul, evLin, LinPoly.mul, hx1, h1, h2, hy2,
            except_bind_ok, except_bind_err]
        | some c2 =>
          simp [Cpx.mul, evMul, evLin, LinPoly.mul, hx1, h1, h2, hy2,
            except_bind_ok, except_bind_err]
    · cases hx1 : x1.number with
      | none =>
        cases hx2 : x2.number with
        | none =>
          simp [Cpx.mul, evMul, evLin, LinPoly.mul, hx1, hx2, except_bind_ok, except_bind_err]
        | some c2 =>
          simp [Cpx.mul, evMul, evLin, LinPoly.mul, hx1, hx2, h1, h2,
            except_bind_ok, except_bind_err]
      | some c1 =>
        simp [Cpx.mul, evMul, evLin, LinPoly.mul, hx1, h1, h2, except_bind_ok, except_bind_err]
  · -- right operand constant a + bi
    intro ha hb
    obtain ⟨ta, hta, htac, htacoeff, htand, _⟩ := mul_const_right x1 ha
    obtain ⟨tb, htb, htbc, htbcoeff, htbnd, _⟩ := mul_const_right y1 hb
    obtain ⟨tc, htc, htcc, htccoeff, htcnd, _⟩ := mul_const_right x1 hb
    have htd := mul_const_left y1 ha
    have e1 : evMul (EnvVal.lin x1) (EnvVal.lin x2) = .ok ta := by
      rw [evMul_lin]; exact hta
    have e2 : evMul (EnvVal.lin y1) (EnvVal.lin y2) = .ok tb := by
      rw [evMul_lin]; exact htb
    have e3 : evMul (EnvVal.lin x1) (EnvVal.lin y2) = .ok tc := by
      rw [evMul_lin]; exact htc
    have e4 : evMul (EnvVal.lin x2) (EnvVal.lin y1) = .ok (LinPoly.scale a y1) := by
      rw [evMul_lin]; exact htd
    refine ⟨ta.sub tb, tc.add (LinPoly.scale a y1), ?_, ?_, ?_, ?_, ?_⟩
    · unfold Cpx.mul
      dsimp only
      rw [e1, except_bind_ok, e2, except_bind_ok, e3, except_bind_ok, e4, except_bind_ok]
    · have hc : (ta.sub tb).c = ta.c - tb.c := rfl
      rw [hc, htac, htbc]
    · have hc : (tc.add (LinPoly.scale a y1)).c = tc.c + (LinPoly.scale a y1).c := rfl
      have hs : (LinPoly.scale a y1).c = a * y1.c := rfl
      rw [hc, hs, htcc]
    · intro v
      rw [coeffOf_sub _ _ _ (htbnd hNy1), htacoeff, htbcoeff]
    · intro v
      rw [coeffOf_add _ _ _ (by rw [keysP_scale]; exact hNy1), htccoeff, coeffOf_scale]
  · -- left operand constant a + bi
    intro ha hb
    have hta := mul_const_left x2 ha
    have htb := mul_const_left y2 hb
    have htc := mul_const_left y2 ha
    obtain ⟨td, htd, htdc, htdcoeff, htdnd, _⟩ := mul_const_right x2 hb
    have e1 : evMul (EnvVal.lin x1) (EnvVal.lin x2) = .ok (LinPoly.scale a x2) := by
      rw [evMul_lin]; exact hta
    have e2 : evMul (EnvVal.lin y1) (EnvVal.lin y2) = .ok (LinPoly.scale b y2) := by
      rw [evMul_lin]; exact htb
    have e3 : evMul (EnvVal.lin x1) (EnvVal.lin y2) = .ok (LinPoly.scale a y2) := by
      rw [evMul_lin]; exact htc
    have e4 : evMul (EnvVal.lin x2) (EnvVal.lin y1) = .ok td := by
      rw [evMul_lin]; exact htd
    refine ⟨(LinPoly.scale a x2).sub (LinPoly.scale b y2),
            (LinPoly.scale a y2).add td, ?_, ?_, ?_, ?_, ?_⟩
    · unfold Cpx.mul
      dsimp only
      rw [e1, except_bind_ok, e2, except_bind_ok, e3, except_bind_ok, e4, except_bind_ok]
    · have hc : ((LinPoly.scale a x2).sub (LinPoly.scale b y2)).c
          = a * x2.c - b * y2.c := rfl
      rw [hc]
    · have hc : ((LinPoly.scale a y2).add td).c = a * y2.c + td.c := rfl
      rw [hc, htdc]
      ring
    · intro v
      rw [coeffOf_sub _ _ _ (by rw [keysP_scale]; exact hNy2), coeffOf_scale, coeffOf_scale]
    · intro v
      rw [coeffOf_add _ _ _ (htdnd hNx2), coeffOf_scale, htdcoeff]
      ring

/-- Witness for C7: `(2 + u) * (3 + i)` succeeds with the coefficient of
`u` scaled by `3 + i`, while `u * u` is the nonlinear-product error. -/
theorem c7_mul_requires_constant_witness :
    Cpx.mul (.lin ⟨0, [("u#x", 1)]⟩, .lin ⟨0, []⟩) (.lin ⟨0, [("u#x", 1)]⟩, .lin ⟨0, []⟩)
      = .error .mulNonNumber
    ∧ ∃ wx wy,
        Cpx.mul (.lin ⟨2, [("u#x", 1)]⟩, .lin ⟨0, []⟩) (.lin ⟨3, []⟩, .lin ⟨1, []⟩)
          = .ok (.lin wx, .lin wy)
        ∧ wx.c = (2 : ℚ) * 3 - 0 * 1
        ∧ wy.c = (2 : ℚ) * 1 + 3 * 0
        ∧ (∀ v, coeffOf wx v
            = coeffOf (⟨2, [("u#x", 1)]⟩ : LinPoly) v * 3
              - coeffOf (⟨0, []⟩ : LinPoly) v * 1)
        ∧ (∀ v, coeffOf wy v
            = coeffOf (⟨2, [("u#x", 1)]⟩ : LinPoly) v * 1
              + 3 * coeffOf (⟨0, []⟩ : LinPoly) v) := by
  constructor
  · exact (c7_mul_requires_constant ⟨0, [("u#x", 1)]⟩ ⟨0, []⟩ ⟨0, [("u#x", 1)]⟩ ⟨0, []⟩ 0 0
      (by simp [keysP, keysA]) (by simp [keysP, keysA])
      (by simp [keysP, keysA]) (by simp [keysP, keysA])).1
      (Or.inl (by with_unfolding_all rfl)) (Or.inl (by with_unfolding_all rfl))
  · obtain ⟨wx, wy, hok, hcx, hcy, hvx, hvy⟩ :=
      (c7_mul_requires_constant ⟨2, [("u#x", 1)]⟩ ⟨0, []⟩ ⟨3, []⟩ ⟨1, []⟩ 3 1
        (by simp [keysP, keysA]) (by simp [keysP, keysA])
        (by simp [keysP, keysA]) (by simp [keysP, keysA])).2.1
        (by with_unfolding_all rfl) (by with_unfolding_all rfl)
    exact ⟨wx, wy, hok, by rw [hcx], by rw [hcy], hvx, hvy⟩

/-- C5 counterexample: dividing the constant 1 by the constant 0 — a
divisor that is zero under any tolerance — raises no error at all (the
claimed `DivByZero` failure does not exist; in the IEEE run the parts
become infinities). -/
theorem c5_div_by_zero_counterexample :
    (Cpx.div (numberC 1) (numberC 0)).isOk = true := by
  with_unfolding_all rfl

/-- C5 (amended): complex division fails with the divisor-not-a-number
error exactly when some part of the divisor is not constant; it never
checks the divisor against zero (a constant zero divisor is accepted);
and for a nonzero constant divisor `k = a + bi` the result is the
dividend with its constant term and every coefficient multiplied by
`1/k = (a/(a²+b²), -b/(a²+b²))`. -/
theorem c5_div_scales_by_reciprocal (x1 y1 x2 y2 : LinPoly) (a b : ℚ)
    (hNx1 : (keysP x1).Nodup) (hNy1 : (keysP y1).Nodup) :
    ((x2.number = none ∨ y2.number = none) →
      Cpx.div (.lin x1, .lin y1) (.lin x2, .lin y2) = .error .divisorNotNumber)
    ∧ (x2.number = some a → y2.number = some b → ¬(a = 0 ∧ b = 0) →
      ∃ wx wy, Cpx.div (.lin x1, .lin y1) (.lin x2, .lin y2) = .ok (.lin wx, .lin wy)
        ∧ wx.c = x1.c * (a / (a * a + b * b)) - y1.c * (-(b / (a * a + b * b)))
        ∧ wy.c = x1.c * (-(b / (a * a + b * b))) + (a / (a * a + b * b)) * y1.c
        ∧ (∀ v, coeffOf wx v
            = coeffOf x1 v * (a / (a * a + b * b))
              - coeffOf y1 v * (-(b / (a * a + b * b))))
        ∧ (∀ v, coeffOf wy v
            = coeffOf x1 v * (-(b / (a * a + b * b)))
              + (a / (a * a + b * b)) * coeffOf y1 v))
    ∧ (Cpx.div (.lin x1, .lin y1) (numberC 0)).isOk = true := by
  refine ⟨?_, ?_, ?_⟩
  · intro h
    unfold Cpx.div
    dsimp only
    rcases h with h | h
    · cases hy : y2.number with
      | none =>
        simp [evNumber, except_bind_ok, h, hy]
      | some bb =>
        simp [evNumber, except_bind_ok, h, hy]
    · cases hx : x2.number with
      | none =>
        simp [evNumber, except_bind_ok, h, hx]
      | some aa =>
        simp [evNumber, except_bind_ok, h, hx]
  · intro ha hb hnz
    obtain ⟨t1, ht1, ht1c, ht1coeff, ht1nd, _⟩ := mul_const_right x1 ha
    obtain ⟨t2, ht2, ht2c, ht2coeff, ht2nd, _⟩ := mul_const_right y1 hb
    obtain ⟨t4, ht4, ht4c, ht4coeff, ht4nd, _⟩ := mul_const_right x1 hb
    have ht3 := mul_const_left y1 ha
    have hs : (⟨1 / (a * a + b * b), []⟩ : LinPoly).number = some (1 / (a * a + b * b)) := rfl
    obtain ⟨wx, hwx, hwxc, hwxcoeff, hwxnd, _⟩ := mul_const_right (t1.add t2) hs
    obtain ⟨wy, hwy, hwyc, hwycoeff, hwynd, _⟩ :=
      mul_const_right ((LinPoly.scale a y1).sub t4) hs
    have e1 : evMul (EnvVal.lin x1) (EnvVal.lin x2) = .ok t1 := by
      rw [evMul_lin]; exact ht1
    have e2 : evMul (EnvVal.lin y1) (EnvVal.lin y2) = .ok t2 := by
      rw [evMul_lin]; exact ht2
    have e3 : evMul (EnvVal.lin x2) (EnvVal.lin y1) = .ok (LinPoly.scale a y1) := by
      rw [evMul_lin]; exact ht3
    have e4 : evMul (EnvVal.lin x1) (EnvVal.lin y2) = .ok t4 := by
      rw [evMul_lin]; exact ht4
    refine ⟨wx, wy, ?_, ?_, ?_, ?_, ?_⟩
    · unfold Cpx.div
      dsimp only
      rw [show evNumber (EnvVal.lin x2) = .ok x2.number from rfl, except_bind_ok,
          show evNumber (EnvVal.lin y2) = .ok y2.number from rfl, except_bind_ok,
          ha, hb]
      dsimp only
      rw [e1, except_bind_ok, e2, except_bind_ok, hwx, except_bind_ok,
          e3, except_bind_ok, e4, except_bind_ok, hwy, except_bind_ok]
    · rw [hwxc]
      have : (t1.add t2).c = t1.c + t2.c := rfl
      rw [this, ht1c, ht2c]
      ring
    · rw [hwyc]
      have : ((LinPoly.scale a y1).sub t4).c = a * y1.c - t4.c := rfl
      rw [this, ht4c]
      ring
    · intro v
      rw [hwxcoeff, coeffOf_add _ _ _ (ht2nd hNy1), ht1coeff, ht2coeff]
      ring
    · intro v
      rw [hwycoeff, coeffOf_sub _ _ _ (ht4nd hNx1), coeffOf_scale, ht4coeff]
      ring
  · -- a constant zero divisor flows through without any error
    obtain ⟨t1, ht1, _, _, _, _⟩ :=
      mul_const_right (q := (⟨0, []⟩ : LinPoly)) x1 rfl
    obtain ⟨t2, ht2, _, _, _, _⟩ :=
      mul_const_right (q := (⟨0, []⟩ : LinPoly)) y1 rfl
    have hs : (⟨1 / ((0:ℚ) * 0 + 0 * 0), []⟩ : LinPoly).number
        = some (1 / ((0:ℚ) * 0 + 0 * 0)) := rfl
    obtain ⟨wx, hwx, _, _, _, _⟩ := mul_const_right (t1.add t2) hs
    have ht3 : LinPoly.mul (⟨0, []⟩ : LinPoly) y1 = .ok (LinPoly.scale 0 y1) :=
      mul_const_left y1 rfl
    obtain ⟨wy, hwy, _, _, _, _⟩ := mul_const_right ((LinPoly.scale 0 y1).sub t1) hs
    unfold Cpx.div numberC
    dsimp only
    rw [show evNumber (EnvVal.lin (⟨0, []⟩ : LinPoly)) = .ok (some 0) from rfl,
        except_bind_ok, except_bind_ok]
    dsimp only
    rw [show evMul (EnvVal.lin x1) (EnvVal.lin (⟨0, []⟩ : LinPoly)) = .ok t1 from by
          rw [evMul_lin]; exact ht1,
        except_bind_ok,
        show evMul (EnvVal.lin y1) (EnvVal.lin (⟨0, []⟩ : LinPoly)) = .ok t2 from by
          rw [evMul_lin]; exact ht2,
        except_bind_ok, hwx, except_bind_ok,
        show evMul (EnvVal.lin (⟨0, []⟩ : LinPoly)) (EnvVal.lin y1)
            = .ok (LinPoly.scale 0 y1) from by rw [evMul_lin]; exact ht3,
        except_bind_ok, except_bind_ok, hwy, except_bind_ok]
    rfl

/-- C5 witness: the amended division theorem applied at the concrete
dividend 1 and the non-constant divisor `u`, yielding the
divisor-not-a-number error. -/
theorem c5_div_scales_by_reciprocal_witness :
    Cpx.div (.lin ⟨1, []⟩, .lin ⟨0, []⟩) (.lin ⟨0, [("u#x", 1)]⟩, .lin ⟨0, []⟩)
      = .error .divisorNotNumber :=
  (c5_div_scales_by_reciprocal ⟨1, []⟩ ⟨0, []⟩ ⟨0, [("u#x", 1)]⟩ ⟨0, []⟩ 0 0
    (by decide) (by decide)).1 (Or.inl (by with_unfolding_all rfl))

/-- C4 witness: with real-function tables satisfying `log 1 = 0` and
`exp 0 = 1` (as the IEEE functions do at these points), `1^3` evaluates
to `1 + 3i`: the imaginary part is the exponent, not `0`. -/
theorem c4_pow_imaginary_part_is_exponent_witness :
    (Cpx.pow ⟨fun _ => (0, 0), fun _ => (1, 0)⟩ (numberC 1) (numberC 3)
        = .ok (.lin ⟨1, []⟩, .lin ⟨3, []⟩))
    ∧ ((⟨fun _ => (0, 0), fun _ => (1, 0)⟩ : RealFns).ex
        (((⟨fun _ => (0, 0), fun _ => (1, 0)⟩ : RealFns).lg (1, 0)).1 * 3,
          3 * ((⟨fun _ => (0, 0), fun _ => (1, 0)⟩ : RealFns).lg (1, 0)).2)).2 = 0
    ∧ (3 : ℚ) ≠ 0 :=
  c4_pow_imaginary_part_is_exponent ⟨fun _ => (0, 0), fun _ => (1, 0)⟩ rfl rfl

set_option maxRecDepth 8000 in
/-- C8: processing the same two equations `x = 0.0000001*y` and
`y = 10000000` in the two possible orders yields different translation
entries for `x` — `"0.0000"` in one order and `"1.0000"` in the other —
because `zap` drops the sub-tolerance coefficient `0.0000001` only when
the substitution happens before `y` is known. The claim that the final
translations are independent of equation order is therefore false. -/
theorem c8_translation_depends_on_order :
    ((runProg noFns c8ProgA).map (fun st => translateTok st "x#x")
        = .ok (some "0.0000"))
    ∧ ((runProg noFns c8ProgB).map (fun st => translateTok st "x#x")
        = .ok (some "1.0000"))
    ∧ ("0.0000" : String) ≠ "1.0000" := by
  refine ⟨by with_unfolding_all rfl, by with_unfolding_all rfl, by decide⟩

/-! Translation events during dependency propagation. -/

theorem substEvents_cons_fn (q : LinPoly) (vmax : String) (tr : List (String × String))
    (k : String) (f : FunId) (rest : List (String × EnvVal)) :
    substEvents q vmax tr ((k, EnvVal.fn f) :: rest) = substEvents q vmax tr rest := rfl

theorem substEvents_cons_lin_some (q : LinPoly) (vmax : String) (tr : List (String × String))
    (k : String) (r : LinPoly) (rest : List (String × EnvVal)) (c : ℚ)
    (h : (r.subst q vmax).2 = some c) :
    substEvents q vmax tr ((k, EnvVal.lin r) :: rest)
      = substEvents q vmax (solvedEntry tr k c) rest := by
  conv_lhs => unfold substEvents
  dsimp only
  rw [h]

theorem substEvents_cons_lin_none (q : LinPoly) (vmax : String) (tr : List (String × String))
    (k : String) (r : LinPoly) (rest : List (String × EnvVal))
    (h : (r.subst q vmax).2 = none) :
    substEvents q vmax tr ((k, EnvVal.lin r) :: rest) = substEvents q vmax tr rest := by
  conv_lhs => unfold substEvents
  dsimp only
  rw [h]

/-- A token that is not an environment key receives no translation event
while the new dependency is propagated. -/
theorem substEvents_lookup_not_mem (q : LinPoly) (vmax w : String) :
    ∀ (env : List (String × EnvVal)) (tr : List (String × String)),
      w ∉ keysA env →
      lookupA (substEvents q vmax tr env) w = lookupA tr w := by
  intro env
  induction env with
  | nil => intro tr _; rfl
  | cons e rest ih =>
    intro tr hw
    obtain ⟨k, x⟩ := e
    rw [show keysA ((k, x) :: rest) = k :: keysA rest from rfl, List.mem_cons] at hw
    push_neg at hw
    obtain ⟨hwk, hw'⟩ := hw
    cases x with
    | fn f =>
      rw [substEvents_cons_fn]
      exact ih tr hw'
    | lin r =>
      cases hsub : (r.subst q vmax).2 with
      | none =>
        rw [substEvents_cons_lin_none q vmax tr k r rest hsub]
        exact ih tr hw'
      | some c =>
        rw [substEvents_cons_lin_some q vmax tr k r rest c hsub,
            ih (solvedEntry tr k c) hw']
        unfold solvedEntry
        exact lookupA_setKeyA_ne tr k w _ hwk

/-- The unique environment entry keyed `w` whose polynomial collapses to
the constant `cw` under the substitution leaves `s(zap(cw))` as the
translation of `w`. -/
theorem substEvents_lookup_hit (q : LinPoly) (vmax w : String) (r : LinPoly) (cw : ℚ)
    (hsub : (r.subst q vmax).2 = some cw) :
    ∀ (pre : List (String × EnvVal)) (tr : List (String × String))
      (post : List (String × EnvVal)),
      w ∉ keysA pre → w ∉ keysA post →
      lookupA (substEvents q vmax tr (pre ++ (w, EnvVal.lin r) :: post)) w
        = some (sfmt (zapNum cw)) := by
  intro pre
  induction pre with
  | nil =>
    intro tr post _ hpost
    rw [List.nil_append, substEvents_cons_lin_some q vmax tr w r post cw hsub,
        substEvents_lookup_not_mem q vmax w post _ hpost]
    unfold solvedEntry
    exact lookupA_setKeyA_self tr w _
  | cons e rest ih =>
    intro tr post hpre hpost
    obtain ⟨k, x⟩ := e
    rw [show keysA ((k, x) :: rest) = k :: keysA rest from rfl, List.mem_cons] at hpre
    push_neg at hpre
    obtain ⟨_, hpre'⟩ := hpre
    rw [List.cons_append]
    cases x with
    | fn f =>
      rw [substEvents_cons_fn]
      exact ih tr post hpre' hpost
    | lin r2 =>
      cases hsub2 : (r2.subst q vmax).2 with
      | none =>
        rw [substEvents_cons_lin_none q vmax tr k r2 _ hsub2]
        exact ih tr post hpre' hpost
      | some c2 =>
        rw [substEvents_cons_lin_some q vmax tr k r2 _ c2 hsub2]
        exact ih (solvedEntry tr k c2) post hpre' hpost

theorem solveStep_translation (st : EState) (p : LinPoly) (vmax : String) (cmax : ℚ) :
    (solveStep st p vmax cmax).translation =
      substEvents (pivotPoly p vmax cmax) vmax
        (match (pivotPoly p vmax cmax).number with
         | some c => solvedEntry st.translation vmax c
         | none => st.translation)
        st.env := rfl

/-- C6: when a successful `solve` defines a variable by a constant, the
translation table ends up mapping that variable's token to the
`"%.4f"`-formatted, tolerance-snapped constant, available to later
lookups on the final state.  Part one: the pivot itself, when its
solved polynomial is the constant `c`, is translated as `s(zap(c))`.
Part two: any dependent variable whose stored polynomial collapses to
the constant `cw` under the new substitution is translated as
`s(zap(cw))` (its `solved` event; environment keys are distinct, so the
event is unique and survives). -/
theorem c6_solved_constants_published (st : EState) (p0 : LinPoly) (vmax : String)
    (cmax : ℚ) (st' : EState)
    (hpiv : (pivotScan (p0.zap).ls).2 = some (vmax, cmax))
    (hsolve : solve st p0 = .ok st')
    (hv : vmax ∉ keysA st.env) :
    (∀ c, (pivotPoly (p0.zap) vmax cmax).number = some c →
        translateTok st' vmax = some (sfmt (zapNum c)))
    ∧ (∀ pre w r post cw,
        st.env = pre ++ (w, EnvVal.lin r) :: post →
        (keysA st.env).Nodup →
        (r.subst (pivotPoly (p0.zap) vmax cmax) vmax).2 = some cw →
        translateTok st' w = some (sfmt (zapNum cw))) := by
  unfold solve at hsolve
  cases hn : (p0.zap).number with
  | some c =>
    rw [hn] at hsolve
    by_cases hz : is_zero c <;> simp [hz] at hsolve
  | none =>
    rw [hn, hpiv] at hsolve
    simp only [Except.ok.injEq] at hsolve
    subst hsolve
    constructor
    · intro c hc
      unfold translateTok
      rw [solveStep_translation,
          substEvents_lookup_not_mem (pivotPoly (p0.zap) vmax cmax) vmax vmax st.env _ hv, hc]
      exact lookupA_setKeyA_self st.translation vmax (sfmt (zapNum c))
    · intro pre w r post cw henv hnd hsub
      have hnd' : (keysA pre ++ w :: keysA post).Nodup := by
        rw [henv] at hnd
        simpa [keysA] using hnd
      have hpre : w ∉ keysA pre := by
        intro hw
        exact (List.nodup_append.mp hnd').2.2 hw (List.mem_cons_self w _)
      have hpost : w ∉ keysA post :=
        (List.nodup_cons.mp (List.nodup_append.mp hnd').2.1).1
      unfold translateTok
      rw [solveStep_translation, henv]
      exact substEvents_lookup_hit _ vmax w r cw hsub pre _ post hpre hpost

/-- C6 witness: solving `b#x - 5 = 0` in a state where `a#x` depends on
`b#x` publishes both translations `b#x -> "5.0000"` (the pivot's solved
constant) and `a#x -> "5.0000"` (the dependent polynomial collapsed by
the substitution). -/
theorem c6_solved_constants_published_witness :
    translateTok c6StAfter "b#x" = some (sfmt (zapNum 5))
    ∧ translateTok c6StAfter "a#x" = some (sfmt (zapNum 5)) := by
  have h := c6_solved_constants_published c6St c6P "b#x" 1 c6StAfter
    (by with_unfolding_all rfl) (by with_unfolding_all rfl) (by decide)
  exact ⟨h.1 5 (by with_unfolding_all rfl),
    h.2 [] "a#x" ⟨0, [("b#x", 1)]⟩ [] 5 rfl (by decide) (by with_unfolding_all rfl)⟩
